import Mathlib

/-!
Shallow embedding of the debt-payoff snowball scheduler (`runSnowball`) of the
Ledger repository.  Currency amounts are modelled as exact rationals `ℚ`; the
source stores them as JavaScript numbers and compares against the tolerance
`0.000001`, which we model as the rational `1/1000000`.

JavaScript `Record<string, number>` objects are modelled as insertion-ordered
association lists (`Rec`): assignment to an existing key updates it in place,
assignment to a fresh key appends at the end, and `m[k] || 0` reads the entry
with default `0` (on plain numbers `x || 0` is the identity, except that it
sends `0` to `0`, which is also the identity).
-/

namespace Ledger

/-- The tolerance `0.000001` used by the source for "effectively zero". -/
def eps : ℚ := 1/1000000

/-- Payoff-relevant fields of the source's `DebtItem` record (the remaining
fields — name, currency, balance, credit-limit data — are never read by
`runSnowball`). -/
structure DebtItem where
  id : String
  minPayment : ℚ
  debtAmount : ℚ
deriving Repr, DecidableEq

/-- A working-set entry: the source's spread copy `{ ...d, remaining: d.debtAmount }`
restricted to the fields the simulation reads and writes. -/
structure WorkingDebt where
  id : String
  minPayment : ℚ
  remaining : ℚ
deriving Repr, DecidableEq

/-- One emitted month of the schedule (`SnowballMonth` in the source). -/
structure SnowballMonth where
  monthIndex : ℕ
  totalPaid : ℚ
  payments : List (String × ℚ)
  remainingById : List (String × ℚ)
deriving Repr, DecidableEq

/-- Insertion-ordered association list standing in for a JS `Record<string, number>`. -/
abbrev Rec := List (String × ℚ)

/-- `m[k] || 0`: read a record entry with default `0`. -/
def recGet (m : Rec) (k : String) : ℚ :=
  ((m.find? (fun p => p.1 == k)).map Prod.snd).getD 0

/-- `m[k] = v`: update the entry in place if the key is present, append otherwise. -/
def recSet : Rec → String → ℚ → Rec
  | [], k, v => [(k, v)]
  | (k', v') :: rest, k, v =>
    if k' == k then (k, v) :: rest else (k', v') :: recSet rest k v

/-- Whether key `k` is present, and its value (`undefined` modelled as `none`). -/
def lookupR (m : Rec) (k : String) : Option ℚ :=
  (m.find? (fun p => p.1 == k)).map Prod.snd

/-- `Object.values(m).reduce((sum, v) => sum + v, 0)`. -/
def sumValues (m : Rec) : ℚ :=
  m.foldl (fun s p => s + p.2) 0

/-- `stillActive.reduce((sum, d) => sum + (d.minPayment || 0), 0)`. -/
def sumMinW (l : List WorkingDebt) : ℚ :=
  l.foldl (fun s d => s + d.minPayment) 0

/-- Sum of `minPayment` over a list of input debts. -/
def sumMinD (l : List DebtItem) : ℚ :=
  l.foldl (fun s d => s + d.minPayment) 0

/-- `paid = Math.min(debt.remaining, Math.max(0, debt.minPayment || 0))`:
the amount the minimum-payment pass pays an active debt. -/
def minPaid (d : WorkingDebt) : ℚ := min d.remaining (max 0 d.minPayment)

/-- The minimum-payment pass: for each debt of the working list that is still
active (`remaining > 0`, as captured by the source's `stillActive` filter taken
at the start of the month — each object is visited once, so guarding during the
traversal is equivalent), pay `min(remaining, max(0, minPayment))` and record
the payment and the new remaining balance.  Inactive debts are left untouched
and get no record entries. -/
def payMinimums : List WorkingDebt → Rec → Rec →
    List WorkingDebt × Rec × Rec
  | [], pays, rems => ([], pays, rems)
  | d :: rest, pays, rems =>
    if 0 < d.remaining then
      let r := d.remaining - minPaid d
      let pays' := recSet pays d.id (recGet pays d.id + minPaid d)
      let rems' := recSet rems d.id r
      let out := payMinimums rest pays' rems'
      ({ d with remaining := r } :: out.1, out.2)
    else
      let out := payMinimums rest pays rems
      (d :: out.1, out.2)

/-- `stillActive.filter(d => d.remaining > eps).sort((a,b) => a.remaining - b.remaining)[0]`:
the first element (in working-list order) whose remaining balance is minimal
among those above the tolerance.  JS `Array.prototype.sort` is stable, so the
head of the sorted array is exactly the first-encountered minimum.  (Debts that
were excluded from `stillActive` have `remaining ≤ 0 < eps`, so filtering the
whole working list is equivalent to filtering `stillActive`.) -/
def pickTarget (state : List WorkingDebt) : Option WorkingDebt :=
  (state.filter (fun d => decide (eps < d.remaining))).foldl
    (fun acc d =>
      match acc with
      | none => some d
      | some t => if d.remaining < t.remaining then some d else acc)
    none

/-- Mutating the selected target object in place: replace the first occurrence
of `t` in the working list.  (The sort is stable, so among value-identical
objects the source's target is the first one.) -/
def updateFirst : List WorkingDebt → WorkingDebt → WorkingDebt → List WorkingDebt
  | [], _, _ => []
  | d :: rest, t, t' =>
    if d == t then t' :: rest else d :: updateFirst rest t t'

/-- The snowball pass: `while (extra > eps)` pick the smallest-remaining target
above the tolerance, pay `min(target.remaining, extra)` to it, and stop when no
target is eligible.  Each iteration either zeroes its target (when
`extra > remaining`) or exhausts `extra` (which then fails the loop guard), so
the source's `while` loop runs at most `state.length + 1` times; the `fuel`
argument is instantiated with that bound, making this a faithful rendering of
the unbounded loop (see `snowballPass_fuel_irrelevant`). -/
def snowballPass : ℕ → List WorkingDebt → ℚ → Rec → Rec →
    List WorkingDebt × Rec × Rec
  | 0, state, _, pays, rems => (state, pays, rems)
  | fuel + 1, state, extra, pays, rems =>
    if eps < extra then
      match pickTarget state with
      | none => (state, pays, rems)
      | some t =>
        let paid := min t.remaining extra
        let r := t.remaining - paid
        let state' := updateFirst state t { t with remaining := r }
        let pays' := recSet pays t.id (recGet pays t.id + paid)
        let rems' := recSet rems t.id r
        snowballPass fuel state' (extra - paid) pays' rems'
    else (state, pays, rems)

/-- `extra = Math.max(0, totalMonthly - requiredMin)` where `requiredMin` is the
sum of minimum payments over `stillActive`. -/
def monthExtra (totalMonthly : ℚ) (state : List WorkingDebt) : ℚ :=
  max 0 (totalMonthly - sumMinW (state.filter (fun d => decide (0 < d.remaining))))

/-- The working list, payments record and remaining record after one month's
minimum-payment pass and snowball pass (the records start empty each month). -/
def monthOut (totalMonthly : ℚ) (state : List WorkingDebt) :
    List WorkingDebt × Rec × Rec :=
  snowballPass ((payMinimums state [] []).1.length + 1)
    (payMinimums state [] []).1 (monthExtra totalMonthly state)
    (payMinimums state [] []).2.1 (payMinimums state [] []).2.2

/-- One iteration of the source's month loop: compute the freed-up extra
budget, run the minimum-payment pass and then the snowball pass, and assemble
the emitted `SnowballMonth`. -/
def runMonth (monthIndex : ℕ) (totalMonthly : ℚ) (state : List WorkingDebt) :
    SnowballMonth × List WorkingDebt :=
  ({ monthIndex := monthIndex
     totalPaid := sumValues (monthOut totalMonthly state).2.1
     payments := (monthOut totalMonthly state).2.1
     remainingById := (monthOut totalMonthly state).2.2 }, (monthOut totalMonthly state).1)

/-- The month loop, `fuel` months remaining, current 1-based `monthIndex`.
The loop stops without emitting when no debt has `remaining > 0`, and after
emitting a month it stops when every debt of `stillActive` has
`remaining ≤ eps`; debts outside `stillActive` have `remaining ≤ 0 ≤ eps` and
are unchanged by the month, so checking the whole updated working list is
equivalent to the source's check over `stillActive`. -/
def runLoop : ℕ → ℕ → ℚ → List WorkingDebt →
    List SnowballMonth × List WorkingDebt
  | 0, _, _, state => ([], state)
  | fuel + 1, monthIndex, totalMonthly, state =>
    if (state.filter (fun d => decide (0 < d.remaining))).isEmpty then
      ([], state)
    else
      let out := runMonth monthIndex totalMonthly state
      if out.2.all (fun d => decide (d.remaining ≤ eps)) then
        ([out.1], out.2)
      else
        let rest := runLoop fuel (monthIndex + 1) totalMonthly out.2
        (out.1 :: rest.1, rest.2)

/-- The working set: debts with a strictly positive balance. -/
def workingSet (debts : List DebtItem) : List DebtItem :=
  debts.filter (fun d => decide (0 < d.debtAmount))

/-- `active = debts.filter(d => d.debtAmount > 0).map(d => ({...d, remaining: d.debtAmount}))`:
the spread copies each surviving debt into a fresh working record. -/
def initActive (debts : List DebtItem) : List WorkingDebt :=
  (workingSet debts).map
    (fun d => { id := d.id, minPayment := d.minPayment, remaining := d.debtAmount })

/-- `runSnowball(debts, extraPayment, maxMonths = 600)` from the source:
filter out non-positive debts, copy each survivor into a working record with
`remaining = debtAmount`, fix the monthly budget once up front, and run the
month loop. -/
def runSnowball (debts : List DebtItem) (extraPayment : ℚ)
    (maxMonths : ℕ := 600) : List SnowballMonth :=
  if (initActive debts).isEmpty then []
  else (runLoop maxMonths 1 (sumMinW (initActive debts) + extraPayment)
    (initActive debts)).1

/-! ### Basic facts about record operations and sums -/

theorem foldl_add_snd (l : Rec) (c : ℚ) :
    l.foldl (fun s p => s + p.2) c = c + (l.map Prod.snd).sum := by
  induction l generalizing c with
  | nil => simp
  | cons a l ih => simp [List.foldl_cons, ih, add_assoc]

theorem sumValues_eq_sum (l : Rec) : sumValues l = (l.map Prod.snd).sum := by
  simp [sumValues, foldl_add_snd]

theorem sumMinW_eq_sum (l : List WorkingDebt) :
    sumMinW l = (l.map WorkingDebt.minPayment).sum := by
  have h : ∀ c : ℚ, l.foldl (fun s d => s + d.minPayment) c
      = c + (l.map WorkingDebt.minPayment).sum := by
    induction l with
    | nil => simp
    | cons a l ih => intro c; simp [List.foldl_cons, ih, add_assoc]
  simpa [sumMinW] using h 0

theorem sumMinD_eq_sum (l : List DebtItem) :
    sumMinD l = (l.map DebtItem.minPayment).sum := by
  have h : ∀ c : ℚ, l.foldl (fun s d => s + d.minPayment) c
      = c + (l.map DebtItem.minPayment).sum := by
    induction l with
    | nil => simp
    | cons a l ih => intro c; simp [List.foldl_cons, ih, add_assoc]
  simpa [sumMinD] using h 0

theorem lookupR_nil (k : String) : lookupR [] k = none := rfl

theorem lookupR_cons (a : String × ℚ) (m : Rec) (k : String) :
    lookupR (a :: m) k = if a.1 = k then some a.2 else lookupR m k := by
  by_cases h : a.1 = k
  · rw [if_pos h]
    unfold lookupR
    rw [List.find?_cons_of_pos _ (by simpa using h)]
    rfl
  · rw [if_neg h]
    unfold lookupR
    rw [List.find?_cons_of_neg _ (by simpa using h)]

theorem recSet_cons (a : String × ℚ) (m : Rec) (k : String) (v : ℚ) :
    recSet (a :: m) k v =
      if a.1 = k then (k, v) :: m else a :: recSet m k v := by
  by_cases h : a.1 = k
  · rw [if_pos h]
    show (if (a.1 == k) = true then _ else _) = _
    rw [if_pos (by simpa using h)]
  · rw [if_neg h]
    show (if (a.1 == k) = true then _ else _) = _
    rw [if_neg (by simpa using h)]

theorem lookupR_recSet_self (m : Rec) (k : String) (v : ℚ) :
    lookupR (recSet m k v) k = some v := by
  induction m with
  | nil => simp [recSet, lookupR]
  | cons a m ih =>
    rw [recSet_cons]
    by_cases h : a.1 = k
    · rw [if_pos h, lookupR_cons, if_pos rfl]
    · rw [if_neg h, lookupR_cons, if_neg h, ih]

theorem lookupR_recSet_ne (m : Rec) (k k' : String) (v : ℚ) (h : k' ≠ k) :
    lookupR (recSet m k v) k' = lookupR m k' := by
  induction m with
  | nil =>
    show lookupR [(k, v)] k' = none
    rw [lookupR_cons, if_neg (by simpa using (Ne.symm h))]
    rfl
  | cons a m ih =>
    rw [recSet_cons]
    by_cases ha : a.1 = k
    · rw [if_pos ha, lookupR_cons, lookupR_cons, if_neg (by simpa using (Ne.symm h))]
      rw [if_neg (by rw [ha]; exact fun hh => h hh.symm)]
    · rw [if_neg ha, lookupR_cons, lookupR_cons, ih]

theorem recGet_eq (m : Rec) (k : String) : recGet m k = (lookupR m k).getD 0 := rfl

theorem lookupR_mem (m : Rec) (k : String) (v : ℚ) (h : lookupR m k = some v) :
    (k, v) ∈ m := by
  unfold lookupR at h
  rcases Option.map_eq_some'.mp h with ⟨p, hfind, hv⟩
  have hp := List.find?_some hfind
  have hmem := List.mem_of_find?_eq_some hfind
  have : p.1 = k := by simpa using hp
  have : p = (k, v) := by
    cases p; simp_all
  simpa [this] using hmem

theorem recGet_cons (a : String × ℚ) (m : Rec) (k : String) :
    recGet (a :: m) k = if a.1 = k then a.2 else recGet m k := by
  rw [recGet_eq, lookupR_cons]
  by_cases h : a.1 = k
  · rw [if_pos h, if_pos h]
    rfl
  · rw [if_neg h, if_neg h, recGet_eq]

theorem mem_recSet (m : Rec) (k : String) (v : ℚ) (p : String × ℚ)
    (hp : p ∈ recSet m k v) : p = (k, v) ∨ p ∈ m := by
  induction m with
  | nil => simpa [recSet] using hp
  | cons a m ih =>
    rw [recSet_cons] at hp
    by_cases ha : a.1 = k
    · rw [if_pos ha] at hp
      rcases List.mem_cons.mp hp with h | h
      · exact Or.inl h
      · exact Or.inr (List.mem_cons_of_mem _ h)
    · rw [if_neg ha] at hp
      rcases List.mem_cons.mp hp with h | h
      · exact Or.inr (List.mem_cons.mpr (Or.inl h))
      · rcases ih h with h' | h'
        · exact Or.inl h'
        · exact Or.inr (List.mem_cons_of_mem _ h')

theorem sumValues_recSet (m : Rec) (k : String) (p : ℚ) :
    sumValues (recSet m k (recGet m k + p)) = sumValues m + p := by
  induction m with
  | nil =>
    rw [sumValues_eq_sum, sumValues_eq_sum]
    simp [recSet, recGet, lookupR]
  | cons a m ih =>
    rw [recGet_cons, recSet_cons]
    by_cases ha : a.1 = k
    · rw [if_pos ha, if_pos ha, sumValues_eq_sum, sumValues_eq_sum]
      simp [add_assoc, add_comm, add_left_comm]
    · rw [if_neg ha, if_neg ha, sumValues_eq_sum, List.map_cons, List.sum_cons,
        sumValues_eq_sum, List.map_cons, List.sum_cons]
      rw [sumValues_eq_sum, sumValues_eq_sum] at ih
      rw [ih]
      ring

theorem recGet_nonneg (m : Rec) (k : String) (h : ∀ p ∈ m, 0 ≤ p.2) :
    0 ≤ recGet m k := by
  rw [recGet_eq]
  cases hl : lookupR m k with
  | none => simp
  | some v =>
    have := h _ (lookupR_mem m k v hl)
    simpa using this

/-! ### The minimum-payment pass -/

/-- The effect of the minimum-payment pass on a single working debt. -/
def payStep (d : WorkingDebt) : WorkingDebt :=
  if 0 < d.remaining then { d with remaining := d.remaining - minPaid d } else d

theorem minPaid_nonneg (d : WorkingDebt) (h : 0 ≤ d.remaining) : 0 ≤ minPaid d :=
  le_min h (le_max_left 0 _)

theorem minPaid_le_remaining (d : WorkingDebt) : minPaid d ≤ d.remaining :=
  min_le_left _ _

theorem payStep_id (d : WorkingDebt) : (payStep d).id = d.id := by
  unfold payStep; split <;> rfl

theorem payStep_minPayment (d : WorkingDebt) : (payStep d).minPayment = d.minPayment := by
  unfold payStep; split <;> rfl

theorem payStep_remaining_le (d : WorkingDebt) : (payStep d).remaining ≤ d.remaining := by
  unfold payStep
  split
  · have := minPaid_nonneg d (le_of_lt (by assumption))
    simp only
    linarith
  · exact le_refl _

theorem payStep_remaining_nonneg (d : WorkingDebt) (h : 0 ≤ d.remaining) :
    0 ≤ (payStep d).remaining := by
  unfold payStep
  split
  · have := minPaid_le_remaining d
    simp only
    linarith
  · exact h

theorem payStep_inactive (d : WorkingDebt) (h : d.remaining ≤ 0) : payStep d = d := by
  unfold payStep
  rw [if_neg (by linarith)]

theorem payMinimums_cons_active (d : WorkingDebt) (s : List WorkingDebt) (pays rems : Rec)
    (h : 0 < d.remaining) :
    payMinimums (d :: s) pays rems =
      ({ d with remaining := d.remaining - minPaid d } ::
        (payMinimums s
          (recSet pays d.id (recGet pays d.id + minPaid d))
          (recSet rems d.id (d.remaining - minPaid d))).1,
       (payMinimums s
          (recSet pays d.id (recGet pays d.id + minPaid d))
          (recSet rems d.id (d.remaining - minPaid d))).2) := by
  simp only [payMinimums, if_pos h]

theorem payMinimums_cons_inactive (d : WorkingDebt) (s : List WorkingDebt) (pays rems : Rec)
    (h : ¬ 0 < d.remaining) :
    payMinimums (d :: s) pays rems =
      (d :: (payMinimums s pays rems).1, (payMinimums s pays rems).2) := by
  simp only [payMinimums, if_neg h]

theorem payMinimums_state (s : List WorkingDebt) (pays rems : Rec) :
    (payMinimums s pays rems).1 = s.map payStep := by
  induction s generalizing pays rems with
  | nil => rfl
  | cons d s ih =>
    by_cases h : 0 < d.remaining
    · rw [payMinimums_cons_active d s pays rems h, List.map_cons, ih]
      unfold payStep
      rw [if_pos h]
    · rw [payMinimums_cons_inactive d s pays rems h, List.map_cons, ih]
      unfold payStep
      rw [if_neg h]

theorem nodup_map_inj {α β : Type _} (f : α → β) (l : List α)
    (h : (l.map f).Nodup) {a b : α} (ha : a ∈ l) (hb : b ∈ l) (hf : f a = f b) :
    a = b := by
  induction l with
  | nil => cases ha
  | cons c l ih =>
    rw [List.map_cons, List.nodup_cons] at h
    rcases List.mem_cons.mp ha with ha' | ha' <;>
      rcases List.mem_cons.mp hb with hb' | hb'
    · rw [ha', hb']
    · exfalso
      apply h.1
      have hcb : f c = f b := by rw [← ha']; exact hf
      rw [hcb]
      exact List.mem_map_of_mem f hb'
    · exfalso
      apply h.1
      have hca : f c = f a := by rw [← hb']; exact hf.symm
      rw [hca]
      exact List.mem_map_of_mem f ha'
    · exact ih h.2 ha' hb'

theorem payMinimums_pays_sum (s : List WorkingDebt) (pays rems : Rec) :
    sumValues (payMinimums s pays rems).2.1 =
      sumValues pays +
        ((s.filter (fun d => decide (0 < d.remaining))).map minPaid).sum := by
  induction s generalizing pays rems with
  | nil => simp [payMinimums]
  | cons d s ih =>
    by_cases h : 0 < d.remaining
    · rw [payMinimums_cons_active d s pays rems h]
      simp only
      rw [ih, sumValues_recSet, List.filter_cons, if_pos (by simpa using h)]
      simp only [List.map_cons, List.sum_cons]
      ring
    · rw [payMinimums_cons_inactive d s pays rems h]
      simp only
      rw [ih, List.filter_cons, if_neg (by simpa using h)]

theorem payMinimums_pays_frozen (s : List WorkingDebt) (pays rems : Rec) (k : String)
    (h : ∀ d ∈ s, 0 < d.remaining → d.id ≠ k) :
    lookupR (payMinimums s pays rems).2.1 k = lookupR pays k := by
  induction s generalizing pays rems with
  | nil => rfl
  | cons d s ih =>
    by_cases hd : 0 < d.remaining
    · rw [payMinimums_cons_active d s pays rems hd]
      simp only
      rw [ih _ _ (fun d' hd' => h d' (List.mem_cons_of_mem _ hd')),
        lookupR_recSet_ne _ _ _ _ (fun hk => h d (List.mem_cons_self d s) hd hk.symm)]
    · rw [payMinimums_cons_inactive d s pays rems hd]
      simp only
      exact ih _ _ (fun d' hd' => h d' (List.mem_cons_of_mem _ hd'))

theorem payMinimums_rems_frozen (s : List WorkingDebt) (pays rems : Rec) (k : String)
    (h : ∀ d ∈ s, 0 < d.remaining → d.id ≠ k) :
    lookupR (payMinimums s pays rems).2.2 k = lookupR rems k := by
  induction s generalizing pays rems with
  | nil => rfl
  | cons d s ih =>
    by_cases hd : 0 < d.remaining
    · rw [payMinimums_cons_active d s pays rems hd]
      simp only
      rw [ih _ _ (fun d' hd' => h d' (List.mem_cons_of_mem _ hd')),
        lookupR_recSet_ne _ _ _ _ (fun hk => h d (List.mem_cons_self d s) hd hk.symm)]
    · rw [payMinimums_cons_inactive d s pays rems hd]
      simp only
      exact ih _ _ (fun d' hd' => h d' (List.mem_cons_of_mem _ hd'))

theorem payMinimums_rems_hit (s : List WorkingDebt) (pays rems : Rec)
    (hnd : (s.map WorkingDebt.id).Nodup) (d : WorkingDebt) (hd : d ∈ s)
    (hr : 0 < d.remaining) :
    lookupR (payMinimums s pays rems).2.2 d.id = some (d.remaining - minPaid d) := by
  induction s generalizing pays rems with
  | nil => cases hd
  | cons c s ih =>
    rw [List.map_cons, List.nodup_cons] at hnd
    rcases List.mem_cons.mp hd with hdc | hdc
    · subst hdc
      rw [payMinimums_cons_active d s pays rems hr]
      simp only
      rw [payMinimums_rems_frozen s _ _ d.id
        (fun d' hd' _ => fun hk => hnd.1 (hk ▸ List.mem_map_of_mem _ hd')),
        lookupR_recSet_self]
    · by_cases hc : 0 < c.remaining
      · rw [payMinimums_cons_active c s pays rems hc]
        simp only
        exact ih _ _ hnd.2 hdc
      · rw [payMinimums_cons_inactive c s pays rems hc]
        simp only
        exact ih _ _ hnd.2 hdc

theorem payMinimums_pays_hit (s : List WorkingDebt) (pays rems : Rec)
    (hnd : (s.map WorkingDebt.id).Nodup) (d : WorkingDebt) (hd : d ∈ s)
    (hr : 0 < d.remaining) :
    lookupR (payMinimums s pays rems).2.1 d.id = some (recGet pays d.id + minPaid d) := by
  induction s generalizing pays rems with
  | nil => cases hd
  | cons c s ih =>
    rw [List.map_cons, List.nodup_cons] at hnd
    rcases List.mem_cons.mp hd with hdc | hdc
    · subst hdc
      rw [payMinimums_cons_active d s pays rems hr]
      simp only
      rw [payMinimums_pays_frozen s _ _ d.id
        (fun d' hd' _ => fun hk => hnd.1 (hk ▸ List.mem_map_of_mem _ hd')),
        lookupR_recSet_self]
    · have hne : c.id ≠ d.id := fun hk => hnd.1 (hk ▸ List.mem_map_of_mem _ hdc)
      by_cases hc : 0 < c.remaining
      · rw [payMinimums_cons_active c s pays rems hc]
        simp only
        have hg : recGet (recSet pays c.id (recGet pays c.id + minPaid c)) d.id
            = recGet pays d.id := by
          rw [recGet_eq, lookupR_recSet_ne _ _ _ _ (Ne.symm hne), ← recGet_eq]
        rw [ih _ _ hnd.2 hdc, hg]
      · rw [payMinimums_cons_inactive c s pays rems hc]
        simp only
        exact ih _ _ hnd.2 hdc

theorem payMinimums_pays_mem (s : List WorkingDebt) (pays rems : Rec)
    (p : String × ℚ) (hp : p ∈ (payMinimums s pays rems).2.1) :
    p ∈ pays ∨ ∃ d ∈ s, d.id = p.1 := by
  induction s generalizing pays rems with
  | nil => exact Or.inl hp
  | cons c s ih =>
    by_cases hc : 0 < c.remaining
    · rw [payMinimums_cons_active c s pays rems hc] at hp
      simp only at hp
      rcases ih _ _ hp with h | ⟨d, hd, hid⟩
      · rcases mem_recSet _ _ _ _ h with h' | h'
        · exact Or.inr ⟨c, List.mem_cons_self c s, by rw [h']⟩
        · exact Or.inl h'
      · exact Or.inr ⟨d, List.mem_cons_of_mem _ hd, hid⟩
    · rw [payMinimums_cons_inactive c s pays rems hc] at hp
      simp only at hp
      rcases ih _ _ hp with h | ⟨d, hd, hid⟩
      · exact Or.inl h
      · exact Or.inr ⟨d, List.mem_cons_of_mem _ hd, hid⟩

theorem payMinimums_rems_mem (s : List WorkingDebt) (pays rems : Rec)
    (p : String × ℚ) (hp : p ∈ (payMinimums s pays rems).2.2) :
    p ∈ rems ∨ ∃ d ∈ s, 0 < d.remaining ∧ p = (d.id, d.remaining - minPaid d) := by
  induction s generalizing pays rems with
  | nil => exact Or.inl hp
  | cons c s ih =>
    by_cases hc : 0 < c.remaining
    · rw [payMinimums_cons_active c s pays rems hc] at hp
      simp only at hp
      rcases ih _ _ hp with h | ⟨d, hd, hr, hep⟩
      · rcases mem_recSet _ _ _ _ h with h' | h'
        · exact Or.inr ⟨c, List.mem_cons_self c s, hc, h'⟩
        · exact Or.inl h'
      · exact Or.inr ⟨d, List.mem_cons_of_mem _ hd, hr, hep⟩
    · rw [payMinimums_cons_inactive c s pays rems hc] at hp
      simp only at hp
      rcases ih _ _ hp with h | ⟨d, hd, hr, hep⟩
      · exact Or.inl h
      · exact Or.inr ⟨d, List.mem_cons_of_mem _ hd, hr, hep⟩

theorem payMinimums_pays_nonneg (s : List WorkingDebt) (pays rems : Rec)
    (h : ∀ p ∈ pays, 0 ≤ p.2) :
    ∀ p ∈ (payMinimums s pays rems).2.1, 0 ≤ p.2 := by
  induction s generalizing pays rems with
  | nil => exact h
  | cons c s ih =>
    by_cases hc : 0 < c.remaining
    · rw [payMinimums_cons_active c s pays rems hc]
      simp only
      apply ih
      intro p hp
      rcases mem_recSet _ _ _ _ hp with h' | h'
      · rw [h']
        have h1 := recGet_nonneg pays c.id h
        have h2 := minPaid_nonneg c (le_of_lt hc)
        simpa using add_nonneg h1 h2
      · exact h p h'
    · rw [payMinimums_cons_inactive c s pays rems hc]
      simp only
      exact ih _ _ h

theorem payMinimums_rems_nonneg (s : List WorkingDebt) (pays rems : Rec)
    (h : ∀ p ∈ rems, 0 ≤ p.2) :
    ∀ p ∈ (payMinimums s pays rems).2.2, 0 ≤ p.2 := by
  induction s generalizing pays rems with
  | nil => exact h
  | cons c s ih =>
    by_cases hc : 0 < c.remaining
    · rw [payMinimums_cons_active c s pays rems hc]
      simp only
      apply ih
      intro p hp
      rcases mem_recSet _ _ _ _ hp with h' | h'
      · rw [h']
        have h2 := minPaid_le_remaining c
        simp only
        linarith
      · exact h p h'
    · rw [payMinimums_cons_inactive c s pays rems hc]
      simp only
      exact ih _ _ h

/-! ### The snowball pass: target selection and in-place update -/

theorem eps_pos : 0 < eps := by norm_num [eps]

theorem pickTarget_mem (s : List WorkingDebt) (t : WorkingDebt)
    (h : pickTarget s = some t) : t ∈ s ∧ eps < t.remaining := by
  have key : ∀ (l : List WorkingDebt) (acc : Option WorkingDebt),
      l.foldl (fun acc d =>
        match acc with
        | none => some d
        | some t' => if d.remaining < t'.remaining then some d else acc) acc = some t →
      acc = some t ∨ t ∈ l := by
    intro l
    induction l with
    | nil => intro acc h'; exact Or.inl h'
    | cons d l ih =>
      intro acc h'
      rw [List.foldl_cons] at h'
      rcases ih _ h' with h'' | h''
      · cases acc with
        | none =>
          simp only at h''
          exact Or.inr (List.mem_cons.mpr (Or.inl (Option.some.inj h'').symm))
        | some t' =>
          simp only at h''
          by_cases hlt : d.remaining < t'.remaining
          · rw [if_pos hlt] at h''
            exact Or.inr (List.mem_cons.mpr (Or.inl (Option.some.inj h'').symm))
          · rw [if_neg hlt] at h''
            exact Or.inl h''
      · exact Or.inr (List.mem_cons_of_mem _ h'')
  rcases key _ _ h with h' | h'
  · cases h'
  · have h1 := List.mem_filter.mp h'
    exact ⟨h1.1, by simpa using h1.2⟩

theorem pickTarget_eq_none (s : List WorkingDebt)
    (h : s.filter (fun d => decide (eps < d.remaining)) = []) :
    pickTarget s = none := by
  unfold pickTarget
  rw [h]
  rfl

theorem updateFirst_cons (d : WorkingDebt) (s : List WorkingDebt)
    (t t' : WorkingDebt) :
    updateFirst (d :: s) t t' =
      if (d == t) = true then t' :: s else d :: updateFirst s t t' := rfl

theorem updateFirst_cons_self (d : WorkingDebt) (s : List WorkingDebt)
    (t t' : WorkingDebt) (h : d = t) :
    updateFirst (d :: s) t t' = t' :: s := by
  rw [updateFirst_cons, if_pos (by simpa using h)]

theorem updateFirst_cons_ne (d : WorkingDebt) (s : List WorkingDebt)
    (t t' : WorkingDebt) (h : d ≠ t) :
    updateFirst (d :: s) t t' = d :: updateFirst s t t' := by
  rw [updateFirst_cons, if_neg (by simpa using h)]

theorem mem_updateFirst (s : List WorkingDebt) (t t' d : WorkingDebt)
    (h : d ∈ updateFirst s t t') : d = t' ∨ d ∈ s := by
  induction s with
  | nil => cases h
  | cons c s ih =>
    by_cases hc : c = t
    · rw [updateFirst_cons_self c s t t' hc] at h
      rcases List.mem_cons.mp h with h' | h'
      · exact Or.inl h'
      · exact Or.inr (List.mem_cons_of_mem _ h')
    · rw [updateFirst_cons_ne c s t t' hc] at h
      rcases List.mem_cons.mp h with h' | h'
      · exact Or.inr (List.mem_cons.mpr (Or.inl h'))
      · rcases ih h' with h'' | h''
        · exact Or.inl h''
        · exact Or.inr (List.mem_cons_of_mem _ h'')

theorem mem_updateFirst_of_ne (s : List WorkingDebt) (t t' d : WorkingDebt)
    (hd : d ∈ s) (hne : d ≠ t) : d ∈ updateFirst s t t' := by
  induction s with
  | nil => cases hd
  | cons c s ih =>
    by_cases hc : c = t
    · rw [updateFirst_cons_self c s t t' hc]
      rcases List.mem_cons.mp hd with h' | h'
      · exact absurd (h' ▸ hc) hne
      · exact List.mem_cons_of_mem _ h'
    · rw [updateFirst_cons_ne c s t t' hc]
      rcases List.mem_cons.mp hd with h' | h'
      · exact List.mem_cons.mpr (Or.inl h')
      · exact List.mem_cons_of_mem _ (ih h')

theorem updateFirst_mem_self (s : List WorkingDebt) (t t' : WorkingDebt)
    (h : t ∈ s) : t' ∈ updateFirst s t t' := by
  induction s with
  | nil => cases h
  | cons c s ih =>
    by_cases hc : c = t
    · rw [updateFirst_cons_self c s t t' hc]
      exact List.mem_cons.mpr (Or.inl rfl)
    · rw [updateFirst_cons_ne c s t t' hc]
      rcases List.mem_cons.mp h with h' | h'
      · exact absurd h'.symm hc
      · exact List.mem_cons_of_mem _ (ih h')

theorem updateFirst_map_idmin (s : List WorkingDebt) (t t' : WorkingDebt)
    (h1 : t'.id = t.id) (h2 : t'.minPayment = t.minPayment) :
    (updateFirst s t t').map (fun d => (d.id, d.minPayment)) =
      s.map (fun d => (d.id, d.minPayment)) := by
  induction s with
  | nil => rfl
  | cons c s ih =>
    by_cases hc : c = t
    · rw [updateFirst_cons_self c s t t' hc, List.map_cons, List.map_cons, hc, h1, h2]
    · rw [updateFirst_cons_ne c s t t' hc, List.map_cons, List.map_cons, ih]

theorem updateFirst_get? (s : List WorkingDebt) (t t' : WorkingDebt) (j : ℕ) :
    (updateFirst s t t')[j]? = s[j]? ∨
      ((updateFirst s t t')[j]? = some t' ∧ s[j]? = some t) := by
  induction s generalizing j with
  | nil => left; rfl
  | cons c s ih =>
    by_cases hc : c = t
    · rw [updateFirst_cons_self c s t t' hc]
      cases j with
      | zero => right; exact ⟨by simp, by rw [hc]; simp⟩
      | succ j => left; simp
    · rw [updateFirst_cons_ne c s t t' hc]
      cases j with
      | zero => left; simp
      | succ j =>
        rcases ih j with h | h
        · left; simpa using h
        · right; simpa using h

theorem updateFirst_id_unique (s : List WorkingDebt) (t t' : WorkingDebt)
    (hnd : (s.map WorkingDebt.id).Nodup) (ht : t ∈ s)
    (d : WorkingDebt) (hd : d ∈ updateFirst s t t') (hd2 : d.id = t.id) : d = t' := by
  induction s with
  | nil => cases hd
  | cons c s ih =>
    rw [List.map_cons, List.nodup_cons] at hnd
    by_cases hc : c = t
    · rw [updateFirst_cons_self c s t t' hc] at hd
      rcases List.mem_cons.mp hd with h' | h'
      · exact h'
      · exfalso
        apply hnd.1
        rw [hc, ← hd2]
        exact List.mem_map_of_mem _ h'
    · rw [updateFirst_cons_ne c s t t' hc] at hd
      have hts : t ∈ s := by
        rcases List.mem_cons.mp ht with h' | h'
        · exact absurd h'.symm hc
        · exact h'
      rcases List.mem_cons.mp hd with h' | h'
      · exfalso
        apply hnd.1
        rw [← h', hd2]
        exact List.mem_map_of_mem _ hts
      · exact ih hnd.2 hts h'

theorem updateFirst_count (s : List WorkingDebt) (t t' : WorkingDebt)
    (ht : t ∈ s) (htel : eps < t.remaining) (ht' : ¬ eps < t'.remaining) :
    ((updateFirst s t t').filter (fun d => decide (eps < d.remaining))).length + 1 =
      (s.filter (fun d => decide (eps < d.remaining))).length := by
  induction s with
  | nil => cases ht
  | cons c s ih =>
    by_cases hc : c = t
    · rw [updateFirst_cons_self c s t t' hc, List.filter_cons, List.filter_cons,
        if_neg (by simpa using ht'), if_pos (by rw [hc]; simpa using htel)]
      simp
    · have hts : t ∈ s := by
        rcases List.mem_cons.mp ht with h' | h'
        · exact absurd h'.symm hc
        · exact h'
      rw [updateFirst_cons_ne c s t t' hc, List.filter_cons, List.filter_cons]
      by_cases hcel : eps < c.remaining
      · rw [if_pos (by simpa using hcel), if_pos (by simpa using hcel)]
        simpa using ih hts
      · rw [if_neg (by simpa using hcel), if_neg (by simpa using hcel)]
        exact ih hts

/-! ### The snowball pass: loop lemmas -/

theorem snowballPass_zero (s : List WorkingDebt) (extra : ℚ) (pays rems : Rec) :
    snowballPass 0 s extra pays rems = (s, pays, rems) := rfl

theorem snowballPass_of_le (s : List WorkingDebt) (extra : ℚ) (pays rems : Rec)
    (h : extra ≤ eps) (fuel : ℕ) :
    snowballPass fuel s extra pays rems = (s, pays, rems) := by
  cases fuel with
  | zero => rfl
  | succ fuel => simp [snowballPass, if_neg (not_lt.mpr h)]

theorem snowballPass_none (fuel : ℕ) (s : List WorkingDebt) (extra : ℚ)
    (pays rems : Rec) (hg : eps < extra) (h : pickTarget s = none) :
    snowballPass (fuel + 1) s extra pays rems = (s, pays, rems) := by
  simp [snowballPass, if_pos hg, h]

theorem snowballPass_step (fuel : ℕ) (s : List WorkingDebt) (extra : ℚ)
    (pays rems : Rec) (t : WorkingDebt) (hg : eps < extra)
    (h : pickTarget s = some t) :
    snowballPass (fuel + 1) s extra pays rems =
      snowballPass fuel
        (updateFirst s t { t with remaining := t.remaining - min t.remaining extra })
        (extra - min t.remaining extra)
        (recSet pays t.id (recGet pays t.id + min t.remaining extra))
        (recSet rems t.id (t.remaining - min t.remaining extra)) := by
  simp [snowballPass, if_pos hg, h]

theorem snowballPass_sum_le (fuel : ℕ) :
    ∀ (s : List WorkingDebt) (extra : ℚ) (pays rems : Rec), 0 ≤ extra →
      sumValues (snowballPass fuel s extra pays rems).2.1 ≤ sumValues pays + extra := by
  induction fuel with
  | zero => intro s extra pays rems h; rw [snowballPass_zero]; simpa using h
  | succ fuel ih =>
    intro s extra pays rems h
    by_cases hg : eps < extra
    · cases hpt : pickTarget s with
      | none =>
        rw [snowballPass_none fuel s extra pays rems hg hpt]
        simpa using h
      | some t =>
        rw [snowballPass_step fuel s extra pays rems t hg hpt]
        have hle : min t.remaining extra ≤ extra := min_le_right _ _
        have := ih
          (updateFirst s t { t with remaining := t.remaining - min t.remaining extra })
          (extra - min t.remaining extra)
          (recSet pays t.id (recGet pays t.id + min t.remaining extra))
          (recSet rems t.id (t.remaining - min t.remaining extra))
          (by linarith)
        rw [sumValues_recSet] at this
        linarith
    · rw [snowballPass_of_le s extra pays rems (not_lt.mp hg) (fuel + 1)]
      simpa using h

theorem snowballPass_shape (fuel : ℕ) :
    ∀ (s : List WorkingDebt) (extra : ℚ) (pays rems : Rec),
      (snowballPass fuel s extra pays rems).1.map (fun d => (d.id, d.minPayment)) =
        s.map (fun d => (d.id, d.minPayment)) := by
  induction fuel with
  | zero => intro s extra pays rems; rfl
  | succ fuel ih =>
    intro s extra pays rems
    by_cases hg : eps < extra
    · cases hpt : pickTarget s with
      | none => rw [snowballPass_none fuel s extra pays rems hg hpt]
      | some t =>
        rw [snowballPass_step fuel s extra pays rems t hg hpt, ih,
          updateFirst_map_idmin s t
            { t with remaining := t.remaining - min t.remaining extra } rfl rfl]
    · rw [snowballPass_of_le s extra pays rems (not_lt.mp hg) (fuel + 1)]

theorem snowballPass_pays_mem (fuel : ℕ) :
    ∀ (s : List WorkingDebt) (extra : ℚ) (pays rems : Rec) (p : String × ℚ),
      p ∈ (snowballPass fuel s extra pays rems).2.1 →
      p ∈ pays ∨ ∃ d ∈ s, d.id = p.1 := by
  induction fuel with
  | zero => intro s extra pays rems p hp; exact Or.inl hp
  | succ fuel ih =>
    intro s extra pays rems p hp
    by_cases hg : eps < extra
    · cases hpt : pickTarget s with
      | none =>
        rw [snowballPass_none fuel s extra pays rems hg hpt] at hp
        exact Or.inl hp
      | some t =>
        rw [snowballPass_step fuel s extra pays rems t hg hpt] at hp
        have hmem := pickTarget_mem s t hpt
        rcases ih _ _ _ _ _ hp with h' | ⟨d, hd, hid⟩
        · rcases mem_recSet _ _ _ _ h' with h'' | h''
          · exact Or.inr ⟨t, hmem.1, by rw [h'']⟩
          · exact Or.inl h''
        · rcases mem_updateFirst _ _ _ _ hd with h'' | h''
          · exact Or.inr ⟨t, hmem.1, by rw [← hid, h'']⟩
          · exact Or.inr ⟨d, h'', hid⟩
    · rw [snowballPass_of_le s extra pays rems (not_lt.mp hg) (fuel + 1)] at hp
      exact Or.inl hp

theorem snowballPass_rems_mem (fuel : ℕ) :
    ∀ (s : List WorkingDebt) (extra : ℚ) (pays rems : Rec) (p : String × ℚ),
      p ∈ (snowballPass fuel s extra pays rems).2.2 →
      p ∈ rems ∨ ∃ d ∈ s, d.id = p.1 := by
  induction fuel with
  | zero => intro s extra pays rems p hp; exact Or.inl hp
  | succ fuel ih =>
    intro s extra pays rems p hp
    by_cases hg : eps < extra
    · cases hpt : pickTarget s with
      | none =>
        rw [snowballPass_none fuel s extra pays rems hg hpt] at hp
        exact Or.inl hp
      | some t =>
        rw [snowballPass_step fuel s extra pays rems t hg hpt] at hp
        have hmem := pickTarget_mem s t hpt
        rcases ih _ _ _ _ _ hp with h' | ⟨d, hd, hid⟩
        · rcases mem_recSet _ _ _ _ h' with h'' | h''
          · exact Or.inr ⟨t, hmem.1, by rw [h'']⟩
          · exact Or.inl h''
        · rcases mem_updateFirst _ _ _ _ hd with h'' | h''
          · exact Or.inr ⟨t, hmem.1, by rw [← hid, h'']⟩
          · exact Or.inr ⟨d, h'', hid⟩
    · rw [snowballPass_of_le s extra pays rems (not_lt.mp hg) (fuel + 1)] at hp
      exact Or.inl hp

theorem snowballPass_pays_nonneg (fuel : ℕ) :
    ∀ (s : List WorkingDebt) (extra : ℚ) (pays rems : Rec),
      (∀ p ∈ pays, 0 ≤ p.2) →
      ∀ p ∈ (snowballPass fuel s extra pays rems).2.1, 0 ≤ p.2 := by
  induction fuel with
  | zero => intro s extra pays rems h; exact h
  | succ fuel ih =>
    intro s extra pays rems h
    by_cases hg : eps < extra
    · cases hpt : pickTarget s with
      | none => rw [snowballPass_none fuel s extra pays rems hg hpt]; exact h
      | some t =>
        rw [snowballPass_step fuel s extra pays rems t hg hpt]
        have htel := (pickTarget_mem s t hpt).2
        apply ih
        intro p hp
        rcases mem_recSet _ _ _ _ hp with h' | h'
        · rw [h']
          have h1 := recGet_nonneg pays t.id h
          have h2 : 0 ≤ min t.remaining extra :=
            le_min (le_of_lt (lt_trans eps_pos htel)) (le_of_lt (lt_trans eps_pos hg))
          simpa using add_nonneg h1 h2
        · exact h p h'
    · rw [snowballPass_of_le s extra pays rems (not_lt.mp hg) (fuel + 1)]; exact h

theorem snowballPass_rems_nonneg (fuel : ℕ) :
    ∀ (s : List WorkingDebt) (extra : ℚ) (pays rems : Rec),
      (∀ p ∈ rems, 0 ≤ p.2) →
      ∀ p ∈ (snowballPass fuel s extra pays rems).2.2, 0 ≤ p.2 := by
  induction fuel with
  | zero => intro s extra pays rems h; exact h
  | succ fuel ih =>
    intro s extra pays rems h
    by_cases hg : eps < extra
    · cases hpt : pickTarget s with
      | none => rw [snowballPass_none fuel s extra pays rems hg hpt]; exact h
      | some t =>
        rw [snowballPass_step fuel s extra pays rems t hg hpt]
        apply ih
        intro p hp
        rcases mem_recSet _ _ _ _ hp with h' | h'
        · rw [h']
          have h2 : min t.remaining extra ≤ t.remaining := min_le_left _ _
          simp only
          linarith
        · exact h p h'
    · rw [snowballPass_of_le s extra pays rems (not_lt.mp hg) (fuel + 1)]; exact h

theorem snowballPass_get? (fuel : ℕ) :
    ∀ (s : List WorkingDebt) (extra : ℚ) (pays rems : Rec) (j : ℕ)
      (dIn dOut : WorkingDebt),
      s[j]? = some dIn → (snowballPass fuel s extra pays rems).1[j]? = some dOut →
      dOut.remaining ≤ dIn.remaining ∧ (0 ≤ dIn.remaining → 0 ≤ dOut.remaining) ∧
        (dIn.remaining ≤ 0 → dOut = dIn) := by
  induction fuel with
  | zero =>
    intro s extra pays rems j dIn dOut h1 h2
    rw [snowballPass_zero] at h2
    rw [h1] at h2
    cases Option.some.inj h2
    exact ⟨le_refl _, fun h => h, fun _ => rfl⟩
  | succ fuel ih =>
    intro s extra pays rems j dIn dOut h1 h2
    by_cases hg : eps < extra
    · cases hpt : pickTarget s with
      | none =>
        rw [snowballPass_none fuel s extra pays rems hg hpt, h1] at h2
        cases Option.some.inj h2
        exact ⟨le_refl _, fun h => h, fun _ => rfl⟩
      | some t =>
        rw [snowballPass_step fuel s extra pays rems t hg hpt] at h2
        have htel := (pickTarget_mem s t hpt).2
        rcases updateFirst_get? s t
            { t with remaining := t.remaining - min t.remaining extra } j with h' | h'
        · rcases ih _ _ _ _ j dIn dOut (by rw [h', h1]) h2 with ⟨a, b, c⟩
          exact ⟨a, b, c⟩
        · have hdt : dIn = t := by
            rw [h1] at h'
            exact Option.some.inj h'.2
          have hmid := h'.1
          have hminle : min t.remaining extra ≤ t.remaining := min_le_left _ _
          have hminpos : 0 < min t.remaining extra :=
            lt_min (lt_trans eps_pos htel) (lt_trans eps_pos hg)
          rcases ih _ _ _ _ j _ dOut hmid h2 with ⟨a, b, c⟩
          subst hdt
          refine ⟨le_trans a (by simp only; linarith), fun _ => b (by simp only; linarith),
            fun hneg => absurd (lt_trans eps_pos htel) (not_lt.mpr hneg)⟩
    · rw [snowballPass_of_le s extra pays rems (not_lt.mp hg) (fuel + 1), h1] at h2
      cases Option.some.inj h2
      exact ⟨le_refl _, fun h => h, fun _ => rfl⟩

theorem map_id_of_map_idmin {l l' : List WorkingDebt}
    (h : l.map (fun d => (d.id, d.minPayment)) = l'.map (fun d => (d.id, d.minPayment))) :
    l.map WorkingDebt.id = l'.map WorkingDebt.id := by
  have h1 : ∀ m : List WorkingDebt,
      m.map WorkingDebt.id = (m.map (fun d => (d.id, d.minPayment))).map Prod.fst := by
    intro m
    rw [List.map_map]
    rfl
  rw [h1, h1, h]

theorem snowballPass_ids (fuel : ℕ) (s : List WorkingDebt) (extra : ℚ)
    (pays rems : Rec) :
    (snowballPass fuel s extra pays rems).1.map WorkingDebt.id =
      s.map WorkingDebt.id :=
  map_id_of_map_idmin (snowballPass_shape fuel s extra pays rems)

theorem snowballPass_track (fuel : ℕ) :
    ∀ (s : List WorkingDebt) (extra : ℚ) (pays rems : Rec),
      (s.map WorkingDebt.id).Nodup →
      (∀ k v, lookupR rems k = some v → ∃ d ∈ s, d.id = k ∧ d.remaining = v) →
      (∀ d ∈ s, lookupR rems d.id = some d.remaining ∨
        (lookupR rems d.id = none ∧ d.remaining ≤ 0)) →
      ((∀ k v, lookupR (snowballPass fuel s extra pays rems).2.2 k = some v →
          ∃ d ∈ (snowballPass fuel s extra pays rems).1, d.id = k ∧ d.remaining = v) ∧
       (∀ d ∈ (snowballPass fuel s extra pays rems).1,
          lookupR (snowballPass fuel s extra pays rems).2.2 d.id = some d.remaining ∨
          (lookupR (snowballPass fuel s extra pays rems).2.2 d.id = none ∧
            d.remaining ≤ 0))) := by
  induction fuel with
  | zero =>
    intro s extra pays rems _ hsound htr
    rw [snowballPass_zero]
    exact ⟨hsound, htr⟩
  | succ fuel ih =>
    intro s extra pays rems hnd hsound htr
    by_cases hg : eps < extra
    · cases hpt : pickTarget s with
      | none =>
        rw [snowballPass_none fuel s extra pays rems hg hpt]
        exact ⟨hsound, htr⟩
      | some t =>
        rw [snowballPass_step fuel s extra pays rems t hg hpt]
        have hts := (pickTarget_mem s t hpt).1
        set t' : WorkingDebt :=
          { t with remaining := t.remaining - min t.remaining extra } with ht'
        have hids : (updateFirst s t t').map WorkingDebt.id = s.map WorkingDebt.id :=
          map_id_of_map_idmin (updateFirst_map_idmin s t t' rfl rfl)
        apply ih
        · rw [hids]
          exact hnd
        · intro k v hk
          by_cases hkt : k = t.id
          · subst hkt
            rw [lookupR_recSet_self] at hk
            exact ⟨t', updateFirst_mem_self s t t' hts, rfl,
              by rw [ht']; exact Option.some.inj hk⟩
          · rw [lookupR_recSet_ne _ _ _ _ hkt] at hk
            rcases hsound k v hk with ⟨d, hd, hid, hrem⟩
            have hdt : d ≠ t := fun hh => hkt (by rw [← hid, hh])
            exact ⟨d, mem_updateFirst_of_ne s t t' d hd hdt, hid, hrem⟩
        · intro d hd
          by_cases hdid : d.id = t.id
          · have : d = t' := updateFirst_id_unique s t t' hnd hts d hd hdid
            subst this
            left
            rw [hdid, lookupR_recSet_self]
          · have hds : d ∈ s := by
              rcases mem_updateFirst s t t' d hd with h' | h'
              · exact absurd (by rw [h']) hdid
              · exact h'
            rw [lookupR_recSet_ne _ _ _ _ hdid]
            exact htr d hds
    · rw [snowballPass_of_le s extra pays rems (not_lt.mp hg) (fuel + 1)]
      exact ⟨hsound, htr⟩

/-- The fuel argument of `snowballPass` is irrelevant once it exceeds the
number of debts above the tolerance: the source's unbounded `while` loop
terminates within that bound, so instantiating the fuel with
`state.length + 1` is a faithful rendering. -/
theorem snowballPass_fuel_irrelevant (f1 : ℕ) :
    ∀ (f2 : ℕ) (s : List WorkingDebt) (extra : ℚ) (pays rems : Rec),
      (s.filter (fun d => decide (eps < d.remaining))).length < f1 →
      (s.filter (fun d => decide (eps < d.remaining))).length < f2 →
      snowballPass f1 s extra pays rems = snowballPass f2 s extra pays rems := by
  induction f1 with
  | zero => intro f2 s extra pays rems h1 _; exact absurd h1 (Nat.not_lt_zero _)
  | succ f1 ih =>
    intro f2 s extra pays rems h1 h2
    cases f2 with
    | zero => exact absurd h2 (Nat.not_lt_zero _)
    | succ f2 =>
      by_cases hg : eps < extra
      · cases hpt : pickTarget s with
        | none =>
          rw [snowballPass_none f1 s extra pays rems hg hpt,
            snowballPass_none f2 s extra pays rems hg hpt]
        | some t =>
          rw [snowballPass_step f1 s extra pays rems t hg hpt,
            snowballPass_step f2 s extra pays rems t hg hpt]
          have hmem := pickTarget_mem s t hpt
          by_cases hcase : extra ≤ t.remaining
          · have heq : extra - min t.remaining extra = 0 := by
              rw [min_eq_right hcase]
              ring
            rw [heq, snowballPass_of_le _ _ _ _ (le_of_lt eps_pos) f1,
              snowballPass_of_le _ _ _ _ (le_of_lt eps_pos) f2]
          · have hpaid : min t.remaining extra = t.remaining :=
              min_eq_left (le_of_lt (not_le.mp hcase))
            set t' : WorkingDebt :=
              { t with remaining := t.remaining - min t.remaining extra } with ht'
            have ht'r : ¬ eps < t'.remaining := by
              rw [ht']
              simp only
              rw [hpaid]
              simp only [sub_self]
              exact not_lt.mpr (le_of_lt eps_pos)
            have hcount := updateFirst_count s t t' hmem.1 hmem.2 ht'r
            apply ih
            · omega
            · omega
      · rw [snowballPass_of_le s extra pays rems (not_lt.mp hg) (f1 + 1),
          snowballPass_of_le s extra pays rems (not_lt.mp hg) (f2 + 1)]

theorem snowballPass_rems_present (fuel : ℕ) :
    ∀ (s : List WorkingDebt) (extra : ℚ) (pays rems : Rec) (k : String) (v0 : ℚ),
      lookupR rems k = some v0 →
      ∃ v, lookupR (snowballPass fuel s extra pays rems).2.2 k = some v := by
  induction fuel with
  | zero => intro s extra pays rems k v0 h; exact ⟨v0, h⟩
  | succ fuel ih =>
    intro s extra pays rems k v0 h
    by_cases hg : eps < extra
    · cases hpt : pickTarget s with
      | none => rw [snowballPass_none fuel s extra pays rems hg hpt]; exact ⟨v0, h⟩
      | some t =>
        rw [snowballPass_step fuel s extra pays rems t hg hpt]
        by_cases hkt : k = t.id
        · subst hkt
          exact ih _ _ _ _ _ _ (lookupR_recSet_self _ _ _)
        · exact ih _ _ _ _ _ v0 (by rw [lookupR_recSet_ne _ _ _ _ hkt]; exact h)
    · rw [snowballPass_of_le s extra pays rems (not_lt.mp hg) (fuel + 1)]
      exact ⟨v0, h⟩

theorem snowballPass_rems_absent (fuel : ℕ) :
    ∀ (s : List WorkingDebt) (extra : ℚ) (pays rems : Rec) (k : String),
      lookupR rems k = none →
      (∀ d ∈ s, d.id = k → d.remaining ≤ 0) →
      lookupR (snowballPass fuel s extra pays rems).2.2 k = none := by
  induction fuel with
  | zero => intro s extra pays rems k h _; exact h
  | succ fuel ih =>
    intro s extra pays rems k h hk
    by_cases hg : eps < extra
    · cases hpt : pickTarget s with
      | none => rw [snowballPass_none fuel s extra pays rems hg hpt]; exact h
      | some t =>
        rw [snowballPass_step fuel s extra pays rems t hg hpt]
        have hmem := pickTarget_mem s t hpt
        have htk : t.id ≠ k := fun hh =>
          absurd (lt_trans eps_pos hmem.2) (not_lt.mpr (hk t hmem.1 hh))
        apply ih
        · rw [lookupR_recSet_ne _ _ _ _ (Ne.symm htk)]
          exact h
        · intro d hd hdk
          rcases mem_updateFirst _ _ _ _ hd with h' | h'
          · exact absurd (by rw [h'] at hdk; exact hdk) htk
          · exact hk d h' hdk
    · rw [snowballPass_of_le s extra pays rems (not_lt.mp hg) (fuel + 1)]
      exact h

/-! ### Month-level lemmas -/

theorem map_idmin_payStep (s : List WorkingDebt) :
    (s.map payStep).map (fun d => (d.id, d.minPayment)) =
      s.map (fun d => (d.id, d.minPayment)) := by
  rw [List.map_map]
  apply List.map_congr_left
  intro d _
  simp [Function.comp, payStep_id, payStep_minPayment]

theorem payStep_remaining_of_pos (d : WorkingDebt) (h : 0 < d.remaining) :
    (payStep d).remaining = d.remaining - minPaid d := by
  unfold payStep
  rw [if_pos h]

theorem runMonth_state (i : ℕ) (tm : ℚ) (s : List WorkingDebt) :
    (runMonth i tm s).2 = (monthOut tm s).1 := rfl

theorem runMonth_rems (i : ℕ) (tm : ℚ) (s : List WorkingDebt) :
    (runMonth i tm s).1.remainingById = (monthOut tm s).2.2 := rfl

theorem runMonth_pays (i : ℕ) (tm : ℚ) (s : List WorkingDebt) :
    (runMonth i tm s).1.payments = (monthOut tm s).2.1 := rfl

theorem runMonth_monthIndex (i : ℕ) (tm : ℚ) (s : List WorkingDebt) :
    (runMonth i tm s).1.monthIndex = i := rfl

theorem runMonth_totalPaid (i : ℕ) (tm : ℚ) (s : List WorkingDebt) :
    (runMonth i tm s).1.totalPaid = sumValues (monthOut tm s).2.1 := rfl

theorem monthOut_shape (tm : ℚ) (s : List WorkingDebt) :
    (monthOut tm s).1.map (fun d => (d.id, d.minPayment)) =
      s.map (fun d => (d.id, d.minPayment)) := by
  unfold monthOut
  rw [snowballPass_shape, payMinimums_state, map_idmin_payStep]

theorem monthOut_ids (tm : ℚ) (s : List WorkingDebt) :
    (monthOut tm s).1.map WorkingDebt.id = s.map WorkingDebt.id :=
  map_id_of_map_idmin (monthOut_shape tm s)

theorem monthOut_length (tm : ℚ) (s : List WorkingDebt) :
    (monthOut tm s).1.length = s.length := by
  have h := monthOut_ids tm s
  have h1 := congrArg List.length h
  simpa using h1

theorem monthOut_get? (tm : ℚ) (s : List WorkingDebt) (j : ℕ)
    (dIn dOut : WorkingDebt) (h1 : s[j]? = some dIn)
    (h2 : (monthOut tm s).1[j]? = some dOut) :
    dOut.remaining ≤ dIn.remaining ∧ (0 ≤ dIn.remaining → 0 ≤ dOut.remaining) ∧
      (dIn.remaining ≤ 0 → dOut = dIn) := by
  unfold monthOut at h2
  rw [payMinimums_state] at h2
  have hmid : (s.map payStep)[j]? = some (payStep dIn) := by
    rw [List.getElem?_map, h1]
    rfl
  rcases snowballPass_get? _ _ _ _ _ j (payStep dIn) dOut hmid h2 with ⟨a, b, c⟩
  refine ⟨le_trans a (payStep_remaining_le dIn),
    fun h => b (payStep_remaining_nonneg dIn h), fun h => ?_⟩
  rw [c (by rw [payStep_inactive dIn h]; exact h), payStep_inactive dIn h]

theorem monthOut_get?_id (tm : ℚ) (s : List WorkingDebt) (j : ℕ)
    (dIn dOut : WorkingDebt) (h1 : s[j]? = some dIn)
    (h2 : (monthOut tm s).1[j]? = some dOut) : dOut.id = dIn.id := by
  have h := monthOut_ids tm s
  have h3 : ((monthOut tm s).1.map WorkingDebt.id)[j]? = (s.map WorkingDebt.id)[j]? := by
    rw [h]
  rw [List.getElem?_map, List.getElem?_map, h1, h2] at h3
  exact Option.some.inj h3

theorem monthOut_track (tm : ℚ) (s : List WorkingDebt)
    (hnd : (s.map WorkingDebt.id).Nodup) :
    ((∀ k v, lookupR (monthOut tm s).2.2 k = some v →
        ∃ d ∈ (monthOut tm s).1, d.id = k ∧ d.remaining = v) ∧
     (∀ d ∈ (monthOut tm s).1,
        lookupR (monthOut tm s).2.2 d.id = some d.remaining ∨
        (lookupR (monthOut tm s).2.2 d.id = none ∧ d.remaining ≤ 0))) := by
  unfold monthOut
  rw [payMinimums_state]
  have hnd1 : ((s.map payStep).map WorkingDebt.id).Nodup := by
    rw [map_id_of_map_idmin (map_idmin_payStep s)]
    exact hnd
  apply snowballPass_track _ _ _ _ _ hnd1
  · intro k v hk
    have hkmem := lookupR_mem _ _ _ hk
    rcases payMinimums_rems_mem s [] [] _ hkmem with h' | ⟨d, hd, hr, hp⟩
    · cases h'
    · refine ⟨payStep d, List.mem_map_of_mem payStep hd, ?_, ?_⟩
      · rw [payStep_id]
        exact (congrArg Prod.fst hp).symm
      · rw [payStep_remaining_of_pos d hr]
        exact (congrArg Prod.snd hp).symm
  · intro d1 hd1
    rcases List.mem_map.mp hd1 with ⟨d, hd, hde⟩
    subst hde
    by_cases hr : 0 < d.remaining
    · left
      rw [payStep_id, payMinimums_rems_hit s [] [] hnd d hd hr,
        payStep_remaining_of_pos d hr]
    · right
      constructor
      · rw [payStep_id, payMinimums_rems_frozen s [] [] d.id ?_]
        · rfl
        · intro d' hd' hr' hid
          exact hr (by
            have : d' = d := nodup_map_inj WorkingDebt.id s hnd hd' hd hid
            rw [← this]; exact hr')
      · rw [payStep_inactive d (not_lt.mp hr)]
        exact not_lt.mp hr

theorem monthOut_rems_hit (tm : ℚ) (s : List WorkingDebt)
    (hnd : (s.map WorkingDebt.id).Nodup) (j : ℕ) (dIn dOut : WorkingDebt)
    (h1 : s[j]? = some dIn) (h2 : (monthOut tm s).1[j]? = some dOut)
    (hr : 0 < dIn.remaining) :
    lookupR (monthOut tm s).2.2 dIn.id = some dOut.remaining := by
  have hid := monthOut_get?_id tm s j dIn dOut h1 h2
  have hpresent : ∃ v, lookupR (monthOut tm s).2.2 dIn.id = some v := by
    unfold monthOut
    rw [payMinimums_state]
    apply snowballPass_rems_present _ _ _ _ _ dIn.id
      (dIn.remaining - minPaid dIn)
    exact payMinimums_rems_hit s [] [] hnd dIn
      (List.getElem?_mem h1) hr
  have htr := (monthOut_track tm s hnd).2 dOut (List.getElem?_mem h2)
  rw [hid] at htr
  rcases htr with h' | h'
  · exact h'
  · rcases hpresent with ⟨v, hv⟩
    rw [h'.1] at hv
    cases hv

theorem monthOut_rems_none (tm : ℚ) (s : List WorkingDebt)
    (hnd : (s.map WorkingDebt.id).Nodup) (dIn : WorkingDebt)
    (hd : dIn ∈ s) (hr : dIn.remaining ≤ 0) :
    lookupR (monthOut tm s).2.2 dIn.id = none := by
  unfold monthOut
  rw [payMinimums_state]
  apply snowballPass_rems_absent
  · rw [payMinimums_rems_frozen s [] [] dIn.id ?_]
    · rfl
    · intro d' hd' hr' hid
      have : d' = dIn := nodup_map_inj WorkingDebt.id s hnd hd' hd hid
      rw [this] at hr'
      exact absurd hr' (not_lt.mpr hr)
  · intro d1 hd1 hid1
    rcases List.mem_map.mp hd1 with ⟨d, hd', hde⟩
    subst hde
    rw [payStep_id] at hid1
    have : d = dIn := nodup_map_inj WorkingDebt.id s hnd hd' hd hid1
    subst this
    rw [payStep_inactive d hr]
    exact hr

theorem monthOut_minPayments (tm : ℚ) (s : List WorkingDebt) :
    (monthOut tm s).1.map WorkingDebt.minPayment = s.map WorkingDebt.minPayment := by
  have h := monthOut_shape tm s
  have h1 : ∀ m : List WorkingDebt,
      m.map WorkingDebt.minPayment =
        (m.map (fun d => (d.id, d.minPayment))).map Prod.snd := by
    intro m
    rw [List.map_map]
    rfl
  rw [h1, h1, h]

theorem sumMinW_filter_le (s : List WorkingDebt) (p : WorkingDebt → Bool)
    (hmin : ∀ d ∈ s, 0 ≤ d.minPayment) : sumMinW (s.filter p) ≤ sumMinW s := by
  rw [sumMinW_eq_sum, sumMinW_eq_sum]
  induction s with
  | nil => simp
  | cons c s ih =>
    have hc := hmin c (List.mem_cons_self c s)
    have ih' := ih (fun d hd => hmin d (List.mem_cons_of_mem _ hd))
    rw [List.filter_cons]
    by_cases hp : p c
    · rw [if_pos hp]
      simp only [List.map_cons, List.sum_cons]
      linarith
    · rw [if_neg hp]
      simp only [List.map_cons, List.sum_cons]
      linarith

theorem monthOut_sum_le (tm : ℚ) (s : List WorkingDebt)
    (hmin : ∀ d ∈ s, 0 ≤ d.minPayment) (hsum : sumMinW s ≤ tm) :
    sumValues (monthOut tm s).2.1 ≤ tm := by
  have hreq : sumMinW (s.filter (fun d => decide (0 < d.remaining))) ≤ tm :=
    le_trans (sumMinW_filter_le s _ hmin) hsum
  have hextra : monthExtra tm s =
      tm - sumMinW (s.filter (fun d => decide (0 < d.remaining))) := by
    unfold monthExtra
    rw [max_eq_right (by linarith)]
  have hpm := payMinimums_pays_sum s [] []
  have hzero : sumValues ([] : Rec) = 0 := rfl
  rw [hzero, zero_add] at hpm
  have hpaid_le : ((s.filter (fun d => decide (0 < d.remaining))).map minPaid).sum ≤
      sumMinW (s.filter (fun d => decide (0 < d.remaining))) := by
    rw [sumMinW_eq_sum]
    apply List.sum_le_sum
    intro d hd
    have hds := List.mem_of_mem_filter hd
    have h0 := hmin d hds
    calc minPaid d ≤ max 0 d.minPayment := min_le_right _ _
    _ = d.minPayment := max_eq_right h0
  have hsp := snowballPass_sum_le ((payMinimums s [] []).1.length + 1)
    (payMinimums s [] []).1 (monthExtra tm s)
    (payMinimums s [] []).2.1 (payMinimums s [] []).2.2
    (le_max_left 0 _)
  unfold monthOut
  rw [hpm] at hsp
  rw [hextra] at hsp ⊢
  linarith

theorem monthOut_pays_mem (tm : ℚ) (s : List WorkingDebt) (p : String × ℚ)
    (hp : p ∈ (monthOut tm s).2.1) : p.1 ∈ s.map WorkingDebt.id := by
  unfold monthOut at hp
  rcases snowballPass_pays_mem _ _ _ _ _ _ hp with h' | ⟨d, hd, hid⟩
  · rcases payMinimums_pays_mem s [] [] _ h' with h'' | ⟨d, hd, hid⟩
    · cases h''
    · rw [← hid]
      exact List.mem_map_of_mem _ hd
  · rw [payMinimums_state] at hd
    rcases List.mem_map.mp hd with ⟨d0, hd0, hde⟩
    rw [← hid, ← hde, payStep_id]
    exact List.mem_map_of_mem _ hd0

theorem monthOut_rems_mem (tm : ℚ) (s : List WorkingDebt) (p : String × ℚ)
    (hp : p ∈ (monthOut tm s).2.2) : p.1 ∈ s.map WorkingDebt.id := by
  unfold monthOut at hp
  rcases snowballPass_rems_mem _ _ _ _ _ _ hp with h' | ⟨d, hd, hid⟩
  · rcases payMinimums_rems_mem s [] [] _ h' with h'' | ⟨d, hd, _, hpe⟩
    · cases h''
    · have : p.1 = d.id := by rw [hpe]
      rw [this]
      exact List.mem_map_of_mem _ hd
  · rw [payMinimums_state] at hd
    rcases List.mem_map.mp hd with ⟨d0, hd0, hde⟩
    rw [← hid, ← hde, payStep_id]
    exact List.mem_map_of_mem _ hd0

theorem monthOut_pays_nonneg (tm : ℚ) (s : List WorkingDebt) :
    ∀ p ∈ (monthOut tm s).2.1, 0 ≤ p.2 := by
  unfold monthOut
  apply snowballPass_pays_nonneg
  exact payMinimums_pays_nonneg s [] [] (by intro p hp; cases hp)

theorem monthOut_rems_nonneg (tm : ℚ) (s : List WorkingDebt) :
    ∀ p ∈ (monthOut tm s).2.2, 0 ≤ p.2 := by
  unfold monthOut
  apply snowballPass_rems_nonneg
  exact payMinimums_rems_nonneg s [] [] (by intro p hp; cases hp)

/-! ### The month loop -/

theorem runLoop_zero (i : ℕ) (tm : ℚ) (s : List WorkingDebt) :
    runLoop 0 i tm s = ([], s) := rfl

theorem runLoop_stop (fuel i : ℕ) (tm : ℚ) (s : List WorkingDebt)
    (h : (s.filter (fun d => decide (0 < d.remaining))).isEmpty = true) :
    runLoop (fuel + 1) i tm s = ([], s) := by
  simp only [runLoop, h]
  rfl

theorem runLoop_done (fuel i : ℕ) (tm : ℚ) (s : List WorkingDebt)
    (h : (s.filter (fun d => decide (0 < d.remaining))).isEmpty = false)
    (h2 : (runMonth i tm s).2.all (fun d => decide (d.remaining ≤ eps)) = true) :
    runLoop (fuel + 1) i tm s = ([(runMonth i tm s).1], (runMonth i tm s).2) := by
  simp only [runLoop, h, h2]
  rfl

theorem runLoop_cont (fuel i : ℕ) (tm : ℚ) (s : List WorkingDebt)
    (h : (s.filter (fun d => decide (0 < d.remaining))).isEmpty = false)
    (h2 : (runMonth i tm s).2.all (fun d => decide (d.remaining ≤ eps)) = false) :
    runLoop (fuel + 1) i tm s =
      ((runMonth i tm s).1 :: (runLoop fuel (i + 1) tm (runMonth i tm s).2).1,
        (runLoop fuel (i + 1) tm (runMonth i tm s).2).2) := by
  simp only [runLoop, h, h2]
  rfl

theorem runLoop_length_le (fuel : ℕ) :
    ∀ (i : ℕ) (tm : ℚ) (s : List WorkingDebt),
      (runLoop fuel i tm s).1.length ≤ fuel := by
  induction fuel with
  | zero => intro i tm s; rw [runLoop_zero]; exact le_refl 0
  | succ fuel ih =>
    intro i tm s
    cases hb1 : (s.filter (fun d => decide (0 < d.remaining))).isEmpty with
    | true => rw [runLoop_stop fuel i tm s hb1]; simp
    | false =>
      cases hb2 : (runMonth i tm s).2.all (fun d => decide (d.remaining ≤ eps)) with
      | true => rw [runLoop_done fuel i tm s hb1 hb2]; simp
      | false =>
        rw [runLoop_cont fuel i tm s hb1 hb2]
        simpa using ih (i + 1) tm (runMonth i tm s).2

theorem runLoop_monthIndex (fuel : ℕ) :
    ∀ (i : ℕ) (tm : ℚ) (s : List WorkingDebt) (j : ℕ) (mo : SnowballMonth),
      (runLoop fuel i tm s).1[j]? = some mo → mo.monthIndex = i + j := by
  induction fuel with
  | zero => intro i tm s j mo h; rw [runLoop_zero] at h; cases h
  | succ fuel ih =>
    intro i tm s j mo h
    cases hb1 : (s.filter (fun d => decide (0 < d.remaining))).isEmpty with
    | true => rw [runLoop_stop fuel i tm s hb1] at h; cases h
    | false =>
      cases hb2 : (runMonth i tm s).2.all (fun d => decide (d.remaining ≤ eps)) with
      | true =>
        rw [runLoop_done fuel i tm s hb1 hb2] at h
        cases j with
        | zero =>
          simp only [List.getElem?_cons_zero] at h
          rw [← Option.some.inj h, runMonth_monthIndex, Nat.add_zero]
        | succ j => simp at h
      | false =>
        rw [runLoop_cont fuel i tm s hb1 hb2] at h
        cases j with
        | zero =>
          simp only [List.getElem?_cons_zero] at h
          rw [← Option.some.inj h, runMonth_monthIndex, Nat.add_zero]
        | succ j =>
          simp only [List.getElem?_cons_succ] at h
          rw [ih (i + 1) tm (runMonth i tm s).2 j mo h]
          omega

theorem runLoop_totalPaid_le (fuel : ℕ) :
    ∀ (i : ℕ) (tm : ℚ) (s : List WorkingDebt),
      (∀ d ∈ s, 0 ≤ d.minPayment) → sumMinW s ≤ tm →
      ∀ mo ∈ (runLoop fuel i tm s).1, mo.totalPaid ≤ tm := by
  induction fuel with
  | zero => intro i tm s _ _ mo h; rw [runLoop_zero] at h; cases h
  | succ fuel ih =>
    intro i tm s hmin hsum mo h
    have hfirst : (runMonth i tm s).1.totalPaid ≤ tm := by
      rw [runMonth_totalPaid]
      exact monthOut_sum_le tm s hmin hsum
    have hmin' : ∀ d ∈ (runMonth i tm s).2, 0 ≤ d.minPayment := by
      intro d hd
      rw [runMonth_state] at hd
      have : d.minPayment ∈ (monthOut tm s).1.map WorkingDebt.minPayment :=
        List.mem_map_of_mem _ hd
      rw [monthOut_minPayments] at this
      rcases List.mem_map.mp this with ⟨d0, hd0, he⟩
      rw [← he]
      exact hmin d0 hd0
    have hsum' : sumMinW (runMonth i tm s).2 ≤ tm := by
      rw [runMonth_state, sumMinW_eq_sum, monthOut_minPayments, ← sumMinW_eq_sum]
      exact hsum
    cases hb1 : (s.filter (fun d => decide (0 < d.remaining))).isEmpty with
    | true => rw [runLoop_stop fuel i tm s hb1] at h; cases h
    | false =>
      cases hb2 : (runMonth i tm s).2.all (fun d => decide (d.remaining ≤ eps)) with
      | true =>
        rw [runLoop_done fuel i tm s hb1 hb2] at h
        rcases List.mem_singleton.mp h with h'
        rw [h']
        exact hfirst
      | false =>
        rw [runLoop_cont fuel i tm s hb1 hb2] at h
        rcases List.mem_cons.mp h with h' | h'
        · rw [h']
          exact hfirst
        · exact ih (i + 1) tm (runMonth i tm s).2 hmin' hsum' mo h'

theorem runLoop_values_nonneg (fuel : ℕ) :
    ∀ (i : ℕ) (tm : ℚ) (s : List WorkingDebt) (mo : SnowballMonth),
      mo ∈ (runLoop fuel i tm s).1 →
      (∀ p ∈ mo.payments, 0 ≤ p.2) ∧ (∀ p ∈ mo.remainingById, 0 ≤ p.2) := by
  induction fuel with
  | zero => intro i tm s mo h; rw [runLoop_zero] at h; cases h
  | succ fuel ih =>
    intro i tm s mo h
    have hfirst : (∀ p ∈ (runMonth i tm s).1.payments, 0 ≤ p.2) ∧
        (∀ p ∈ (runMonth i tm s).1.remainingById, 0 ≤ p.2) := by
      rw [runMonth_pays, runMonth_rems]
      exact ⟨monthOut_pays_nonneg tm s, monthOut_rems_nonneg tm s⟩
    cases hb1 : (s.filter (fun d => decide (0 < d.remaining))).isEmpty with
    | true => rw [runLoop_stop fuel i tm s hb1] at h; cases h
    | false =>
      cases hb2 : (runMonth i tm s).2.all (fun d => decide (d.remaining ≤ eps)) with
      | true =>
        rw [runLoop_done fuel i tm s hb1 hb2] at h
        rcases List.mem_singleton.mp h with h'
        rw [h']
        exact hfirst
      | false =>
        rw [runLoop_cont fuel i tm s hb1 hb2] at h
        rcases List.mem_cons.mp h with h' | h'
        · rw [h']
          exact hfirst
        · exact ih (i + 1) tm (runMonth i tm s).2 mo h'

theorem runLoop_keys (fuel : ℕ) :
    ∀ (i : ℕ) (tm : ℚ) (s : List WorkingDebt) (mo : SnowballMonth),
      mo ∈ (runLoop fuel i tm s).1 →
      (∀ p ∈ mo.payments, p.1 ∈ s.map WorkingDebt.id) ∧
      (∀ p ∈ mo.remainingById, p.1 ∈ s.map WorkingDebt.id) := by
  induction fuel with
  | zero => intro i tm s mo h; rw [runLoop_zero] at h; cases h
  | succ fuel ih =>
    intro i tm s mo h
    have hfirst : (∀ p ∈ (runMonth i tm s).1.payments, p.1 ∈ s.map WorkingDebt.id) ∧
        (∀ p ∈ (runMonth i tm s).1.remainingById, p.1 ∈ s.map WorkingDebt.id) := by
      rw [runMonth_pays, runMonth_rems]
      exact ⟨fun p hp => monthOut_pays_mem tm s p hp,
        fun p hp => monthOut_rems_mem tm s p hp⟩
    cases hb1 : (s.filter (fun d => decide (0 < d.remaining))).isEmpty with
    | true => rw [runLoop_stop fuel i tm s hb1] at h; cases h
    | false =>
      cases hb2 : (runMonth i tm s).2.all (fun d => decide (d.remaining ≤ eps)) with
      | true =>
        rw [runLoop_done fuel i tm s hb1 hb2] at h
        rcases List.mem_singleton.mp h with h'
        rw [h']
        exact hfirst
      | false =>
        rw [runLoop_cont fuel i tm s hb1 hb2] at h
        rcases List.mem_cons.mp h with h' | h'
        · rw [h']
          exact hfirst
        · have := ih (i + 1) tm (runMonth i tm s).2 mo h'
          rw [runMonth_state, monthOut_ids] at this
          exact this

theorem runLoop_head_bound (fuel i : ℕ) (tm : ℚ) (s : List WorkingDebt)
    (hnd : (s.map WorkingDebt.id).Nodup) (mo : SnowballMonth)
    (hmo : (runLoop fuel i tm s).1.head? = some mo) (k : String) (v : ℚ)
    (hk : lookupR mo.remainingById k = some v) :
    ∃ d ∈ s, d.id = k ∧ v ≤ d.remaining := by
  have hmain : mo = (runMonth i tm s).1 → ∃ d ∈ s, d.id = k ∧ v ≤ d.remaining := by
    intro he
    rw [he, runMonth_rems] at hk
    rcases (monthOut_track tm s hnd).1 k v hk with ⟨dOut, hdOut, hid, hrem⟩
    rcases List.mem_iff_getElem?.mp hdOut with ⟨j, hj⟩
    have hjl : j < (monthOut tm s).1.length := (List.getElem?_eq_some_iff.mp hj).1
    have hjs : j < s.length := by rw [← monthOut_length tm s]; exact hjl
    have hin : s[j]? = some s[j] := List.getElem?_eq_getElem hjs
    have hidIn := monthOut_get?_id tm s j s[j] dOut hin hj
    have hb := monthOut_get? tm s j s[j] dOut hin hj
    exact ⟨s[j], List.getElem_mem hjs, hidIn ▸ hid, by rw [← hrem]; exact hb.1⟩
  cases fuel with
  | zero => rw [runLoop_zero] at hmo; cases hmo
  | succ fuel =>
    cases hb1 : (s.filter (fun d => decide (0 < d.remaining))).isEmpty with
    | true => rw [runLoop_stop fuel i tm s hb1] at hmo; cases hmo
    | false =>
      cases hb2 : (runMonth i tm s).2.all (fun d => decide (d.remaining ≤ eps)) with
      | true =>
        rw [runLoop_done fuel i tm s hb1 hb2] at hmo
        exact hmain (Option.some.inj hmo).symm
      | false =>
        rw [runLoop_cont fuel i tm s hb1 hb2] at hmo
        exact hmain (Option.some.inj hmo).symm

theorem runLoop_chain (fuel : ℕ) :
    ∀ (i : ℕ) (tm : ℚ) (s : List WorkingDebt),
      (s.map WorkingDebt.id).Nodup →
      List.Chain' (fun M1 M2 => ∀ k v1 v2,
        lookupR M1.remainingById k = some v1 →
        lookupR M2.remainingById k = some v2 → v2 ≤ v1)
        (runLoop fuel i tm s).1 := by
  induction fuel with
  | zero => intro i tm s _; rw [runLoop_zero]; exact List.chain'_nil
  | succ fuel ih =>
    intro i tm s hnd
    have hnd' : ((runMonth i tm s).2.map WorkingDebt.id).Nodup := by
      rw [runMonth_state, monthOut_ids]
      exact hnd
    cases hb1 : (s.filter (fun d => decide (0 < d.remaining))).isEmpty with
    | true => rw [runLoop_stop fuel i tm s hb1]; exact List.chain'_nil
    | false =>
      cases hb2 : (runMonth i tm s).2.all (fun d => decide (d.remaining ≤ eps)) with
      | true =>
        rw [runLoop_done fuel i tm s hb1 hb2]
        exact List.chain'_singleton _
      | false =>
        rw [runLoop_cont fuel i tm s hb1 hb2]
        apply List.chain'_cons'.mpr
        constructor
        · intro M2 hM2 k v1 v2 hv1 hv2
          rw [runMonth_rems] at hv1
          rcases (monthOut_track tm s hnd).1 k v1 hv1 with ⟨dOut, hdOut, hid, hrem⟩
          rcases runLoop_head_bound fuel (i + 1) tm (runMonth i tm s).2 hnd' M2
              hM2 k v2 hv2 with ⟨d, hd, hdid, hdv⟩
          rw [runMonth_state] at hd
          have : d = dOut :=
            nodup_map_inj WorkingDebt.id (monthOut tm s).1
              (by rw [monthOut_ids]; exact hnd) hd hdOut (by rw [hdid, hid])
          rw [← hrem, ← this]
          exact hdv
        · exact ih (i + 1) tm (runMonth i tm s).2 hnd'

theorem runLoop_payoff (fuel : ℕ) :
    ∀ (i : ℕ) (tm : ℚ) (s : List WorkingDebt),
      (s.map WorkingDebt.id).Nodup →
      (runLoop fuel i tm s).1.length < fuel →
      ∀ d ∈ s, 0 < d.remaining →
      ∃ mo ∈ (runLoop fuel i tm s).1, ∃ v,
        lookupR mo.remainingById d.id = some v ∧ v ≤ eps := by
  induction fuel with
  | zero => intro i tm s _ hlen; exact absurd hlen (Nat.not_lt_zero _)
  | succ fuel ih =>
    intro i tm s hnd hlen d hd hr
    rcases List.mem_iff_getElem?.mp hd with ⟨j, hj⟩
    have hjs : j < s.length := (List.getElem?_eq_some_iff.mp hj).1
    have hjo : j < (monthOut tm s).1.length := by
      rw [monthOut_length tm s]; exact hjs
    have hout : (monthOut tm s).1[j]? = some (monthOut tm s).1[j] :=
      List.getElem?_eq_getElem hjo
    set dOut := (monthOut tm s).1[j] with hdOut
    have hhit : lookupR (monthOut tm s).2.2 d.id = some dOut.remaining :=
      monthOut_rems_hit tm s hnd j d dOut hj hout hr
    cases hb1 : (s.filter (fun d => decide (0 < d.remaining))).isEmpty with
    | true =>
      exfalso
      have : d ∈ s.filter (fun d => decide (0 < d.remaining)) :=
        List.mem_filter.mpr ⟨hd, by simpa using hr⟩
      rw [List.isEmpty_iff] at hb1
      rw [hb1] at this
      cases this
    | false =>
      cases hb2 : (runMonth i tm s).2.all (fun d => decide (d.remaining ≤ eps)) with
      | true =>
        rw [runLoop_done fuel i tm s hb1 hb2]
        refine ⟨(runMonth i tm s).1, List.mem_singleton.mpr rfl, dOut.remaining, ?_, ?_⟩
        · rw [runMonth_rems]
          exact hhit
        · have hall := List.all_eq_true.mp hb2 dOut
            (by rw [runMonth_state]; exact List.getElem?_mem hout)
          simpa using hall
      | false =>
        rw [runLoop_cont fuel i tm s hb1 hb2]
        have hlen' : (runLoop fuel (i + 1) tm (runMonth i tm s).2).1.length < fuel := by
          rw [runLoop_cont fuel i tm s hb1 hb2] at hlen
          simpa using hlen
        by_cases hro : 0 < dOut.remaining
        · have hnd' : ((runMonth i tm s).2.map WorkingDebt.id).Nodup := by
            rw [runMonth_state, monthOut_ids]
            exact hnd
          have hdo : dOut ∈ (runMonth i tm s).2 := by
            rw [runMonth_state]
            exact List.getElem?_mem hout
          rcases ih (i + 1) tm (runMonth i tm s).2 hnd' hlen' dOut hdo hro with
            ⟨mo, hmo, v, hv, hve⟩
          have hid : dOut.id = d.id := monthOut_get?_id tm s j d dOut hj hout
          exact ⟨mo, List.mem_cons_of_mem _ hmo, v, by rw [← hid]; exact hv, hve⟩
        · refine ⟨(runMonth i tm s).1, List.mem_cons_self _ _, dOut.remaining, ?_, ?_⟩
          · rw [runMonth_rems]
            exact hhit
          · have := not_lt.mp hro
            linarith [eps_pos]

/-! ### Top-level bridges -/

theorem runSnowball_empty (debts : List DebtItem) (e : ℚ) (mm : ℕ)
    (h : (initActive debts).isEmpty = true) :
    runSnowball debts e mm = [] := by
  unfold runSnowball
  rw [if_pos h]

theorem runSnowball_loop (debts : List DebtItem) (e : ℚ) (mm : ℕ)
    (h : (initActive debts).isEmpty = false) :
    runSnowball debts e mm =
      (runLoop mm 1 (sumMinW (initActive debts) + e) (initActive debts)).1 := by
  unfold runSnowball
  rw [if_neg (by rw [h]; exact Bool.false_ne_true)]

theorem initActive_ids (debts : List DebtItem) :
    (initActive debts).map WorkingDebt.id = (workingSet debts).map DebtItem.id := by
  unfold initActive
  rw [List.map_map]
  rfl

theorem initActive_sumMin (debts : List DebtItem) :
    sumMinW (initActive debts) = sumMinD (workingSet debts) := by
  rw [sumMinW_eq_sum, sumMinD_eq_sum]
  unfold initActive
  rw [List.map_map]
  rfl

theorem mem_workingSet (debts : List DebtItem) (d : DebtItem) :
    d ∈ workingSet debts ↔ d ∈ debts ∧ 0 < d.debtAmount := by
  unfold workingSet
  rw [List.mem_filter]
  simp

theorem mem_initActive_of_workingSet (debts : List DebtItem) (d : DebtItem)
    (hd : d ∈ workingSet debts) :
    ({ id := d.id, minPayment := d.minPayment, remaining := d.debtAmount } :
      WorkingDebt) ∈ initActive debts :=
  List.mem_map_of_mem _ hd

theorem initActive_min_mem (debts : List DebtItem) (w : WorkingDebt)
    (hw : w ∈ initActive debts) :
    ∃ d ∈ workingSet debts, w.id = d.id ∧ w.minPayment = d.minPayment ∧
      w.remaining = d.debtAmount := by
  rcases List.mem_map.mp hw with ⟨d, hd, he⟩
  exact ⟨d, hd, by rw [← he], by rw [← he], by rw [← he]⟩

/-! ### Claim theorems (universally quantified claims) -/

/-- **C1** (budget ceiling): assuming every debt's `minPayment` and the
`extraPayment` are non-negative, every emitted month's `totalPaid` is at most
the sum of `minPayment` over the original working set plus `extraPayment`
plus the tolerance `eps = 1e-6`. -/
theorem budget_ceiling (debts : List DebtItem) (extraPayment : ℚ) (maxMonths : ℕ)
    (hmin : ∀ d ∈ debts, 0 ≤ d.minPayment) (he : 0 ≤ extraPayment) :
    ∀ mo ∈ runSnowball debts extraPayment maxMonths,
      mo.totalPaid ≤ sumMinD (workingSet debts) + extraPayment + eps := by
  intro mo hmo
  cases hb : (initActive debts).isEmpty with
  | true =>
    rw [runSnowball_empty debts extraPayment maxMonths hb] at hmo
    cases hmo
  | false =>
    rw [runSnowball_loop debts extraPayment maxMonths hb] at hmo
    have hminw : ∀ w ∈ initActive debts, 0 ≤ w.minPayment := by
      intro w hw
      rcases initActive_min_mem debts w hw with ⟨d, hd, _, hm, _⟩
      rw [hm]
      exact hmin d ((mem_workingSet debts d).mp hd).1
    have hb2 := runLoop_totalPaid_le maxMonths 1
      (sumMinW (initActive debts) + extraPayment) (initActive debts) hminw
      (le_add_of_nonneg_right he) mo hmo
    rw [initActive_sumMin] at hb2
    linarith [eps_pos]

/-- **C5 amended** (defensive totality): for every input — including negative
`extraPayment` or `minPayment` values — `runSnowball` is total, returns at most
`maxMonths` months, and every recorded payment and remaining balance is
non-negative (negative minimums are clamped to `0` in the payment pass).  The
schedule is, however, not in general equal to that of the clamped input
(see the counterexample). -/
theorem defensive_totality (debts : List DebtItem) (extraPayment : ℚ) (maxMonths : ℕ) :
    (runSnowball debts extraPayment maxMonths).length ≤ maxMonths ∧
    ∀ mo ∈ runSnowball debts extraPayment maxMonths,
      (∀ p ∈ mo.payments, 0 ≤ p.2) ∧ (∀ p ∈ mo.remainingById, 0 ≤ p.2) := by
  cases hb : (initActive debts).isEmpty with
  | true =>
    rw [runSnowball_empty debts extraPayment maxMonths hb]
    exact ⟨Nat.zero_le _, by intro mo hmo; cases hmo⟩
  | false =>
    rw [runSnowball_loop debts extraPayment maxMonths hb]
    exact ⟨runLoop_length_le maxMonths 1 _ _,
      fun mo hmo => runLoop_values_nonneg maxMonths 1 _ _ mo hmo⟩

/-- **C6** (exclusion of non-positive debts): every key appearing in a month's
`payments` or `remainingById` is the id of a debt with positive `debtAmount`,
and if no debt has positive `debtAmount` the schedule is empty. -/
theorem nonpositive_debts_excluded (debts : List DebtItem) (extraPayment : ℚ)
    (maxMonths : ℕ) :
    (∀ mo ∈ runSnowball debts extraPayment maxMonths,
      (∀ p ∈ mo.payments, ∃ d ∈ debts, 0 < d.debtAmount ∧ d.id = p.1) ∧
      (∀ p ∈ mo.remainingById, ∃ d ∈ debts, 0 < d.debtAmount ∧ d.id = p.1)) ∧
    ((∀ d ∈ debts, d.debtAmount ≤ 0) → runSnowball debts extraPayment maxMonths = []) := by
  constructor
  · intro mo hmo
    cases hb : (initActive debts).isEmpty with
    | true =>
      rw [runSnowball_empty debts extraPayment maxMonths hb] at hmo
      cases hmo
    | false =>
      rw [runSnowball_loop debts extraPayment maxMonths hb] at hmo
      have hkeys := runLoop_keys maxMonths 1 _ _ mo hmo
      have htr : ∀ k : String, k ∈ (initActive debts).map WorkingDebt.id →
          ∃ d ∈ debts, 0 < d.debtAmount ∧ d.id = k := by
        intro k hk
        rw [initActive_ids] at hk
        rcases List.mem_map.mp hk with ⟨d, hd, he⟩
        have := (mem_workingSet debts d).mp hd
        exact ⟨d, this.1, this.2, he⟩
      exact ⟨fun p hp => htr p.1 (hkeys.1 p hp), fun p hp => htr p.1 (hkeys.2 p hp)⟩
  · intro hall
    apply runSnowball_empty
    have : workingSet debts = [] := by
      apply List.filter_eq_nil.mpr
      intro d hd
      simpa using not_lt.mpr (hall d hd)
    unfold initActive
    rw [this]
    rfl

/-- **C8** (bounded termination): the schedule never exceeds `maxMonths`
months and the `monthIndex` values run chronologically `1, 2, …` from the
first emitted month. -/
theorem bounded_termination (debts : List DebtItem) (extraPayment : ℚ)
    (maxMonths : ℕ) :
    (runSnowball debts extraPayment maxMonths).length ≤ maxMonths ∧
    ∀ (j : ℕ) (mo : SnowballMonth),
      (runSnowball debts extraPayment maxMonths)[j]? = some mo →
      mo.monthIndex = j + 1 := by
  cases hb : (initActive debts).isEmpty with
  | true =>
    rw [runSnowball_empty debts extraPayment maxMonths hb]
    exact ⟨Nat.zero_le _, by intro j mo hmo; cases j <;> cases hmo⟩
  | false =>
    rw [runSnowball_loop debts extraPayment maxMonths hb]
    refine ⟨runLoop_length_le maxMonths 1 _ _, fun j mo hmo => ?_⟩
    rw [runLoop_monthIndex maxMonths 1 _ _ j mo hmo]
    omega

/-- **C9** (determinism / purity): `runSnowball` is a pure function of the
value of its arguments — two calls on equal inputs give equal schedules.  The
source never mutates the input array: the working set is built from spread
copies (`{ ...d, remaining: d.debtAmount }`), which is why a value-level
embedding is faithful. -/
theorem simulate_deterministic (debts1 debts2 : List DebtItem) (extraPayment : ℚ)
    (maxMonths : ℕ) (h : debts1 = debts2) :
    runSnowball debts1 extraPayment maxMonths =
      runSnowball debts2 extraPayment maxMonths := by
  rw [h]

theorem chain_getElem? {α : Type _} {R : α → α → Prop} {l : List α}
    (h : List.Chain' R l) {i : ℕ} {a b : α}
    (h1 : l[i]? = some a) (h2 : l[i + 1]? = some b) : R a b := by
  rw [List.chain'_iff_get] at h
  obtain ⟨hl1, he1⟩ := List.getElem?_eq_some_iff.mp h1
  obtain ⟨hl2, he2⟩ := List.getElem?_eq_some_iff.mp h2
  have hr := h i (by omega)
  rw [List.get_eq_getElem, List.get_eq_getElem] at hr
  subst he1
  subst he2
  exact hr

/-- **C2** (monotonic payoff): with distinct debt ids, for every working-set
debt and every pair of consecutive emitted months in which its id has a
`remainingById` entry, the later entry is at most the earlier one. -/
theorem monotonic_payoff (debts : List DebtItem) (extraPayment : ℚ)
    (maxMonths : ℕ) (hnd : ((workingSet debts).map DebtItem.id).Nodup) :
    ∀ d ∈ workingSet debts, ∀ (i : ℕ) (M1 M2 : SnowballMonth),
      (runSnowball debts extraPayment maxMonths)[i]? = some M1 →
      (runSnowball debts extraPayment maxMonths)[i + 1]? = some M2 →
      ∀ v1 v2 : ℚ, lookupR M1.remainingById d.id = some v1 →
        lookupR M2.remainingById d.id = some v2 → v2 ≤ v1 := by
  intro d _ i M1 M2 h1 h2 v1 v2 hv1 hv2
  cases hb : (initActive debts).isEmpty with
  | true =>
    rw [runSnowball_empty debts extraPayment maxMonths hb] at h1
    simp at h1
  | false =>
    rw [runSnowball_loop debts extraPayment maxMonths hb] at h1 h2
    have hch := runLoop_chain maxMonths 1
      (sumMinW (initActive debts) + extraPayment) (initActive debts)
      (by rw [initActive_ids]; exact hnd)
    exact chain_getElem? hch h1 h2 d.id v1 v2 hv1 hv2

/-- **C3 amended** (payoff within the tolerance): with distinct debt ids, if
the `maxMonths` cap is not hit, then every working-set debt has, at or before
the final emitted month, a `remainingById` entry that is ≤ `eps = 1e-6`
(the source stops at the tolerance, not at exactly `0`). -/
theorem exact_payoff_within_epsilon (debts : List DebtItem) (extraPayment : ℚ)
    (maxMonths : ℕ) (hnd : ((workingSet debts).map DebtItem.id).Nodup)
    (hcap : (runSnowball debts extraPayment maxMonths).length < maxMonths) :
    ∀ d ∈ workingSet debts, ∃ mo ∈ runSnowball debts extraPayment maxMonths,
      ∃ v, lookupR mo.remainingById d.id = some v ∧ v ≤ eps := by
  intro d hd
  cases hb : (initActive debts).isEmpty with
  | true =>
    exfalso
    have h1 : initActive debts = [] := List.isEmpty_iff.mp hb
    unfold initActive at h1
    have h2 := List.map_eq_nil.mp h1
    rw [h2] at hd
    cases hd
  | false =>
    rw [runSnowball_loop debts extraPayment maxMonths hb] at hcap ⊢
    have hw := mem_initActive_of_workingSet debts d hd
    have hrem : (0 : ℚ) <
        ({ id := d.id, minPayment := d.minPayment, remaining := d.debtAmount } :
          WorkingDebt).remaining :=
      ((mem_workingSet debts d).mp hd).2
    rcases runLoop_payoff maxMonths 1 (sumMinW (initActive debts) + extraPayment)
        (initActive debts) (by rw [initActive_ids]; exact hnd) hcap _ hw hrem with
      ⟨mo, hmo, v, hv, hve⟩
    exact ⟨mo, hmo, v, hv, hve⟩

theorem payStep_eq_self (d : WorkingDebt) (h : 0 < d.remaining)
    (hm : d.minPayment = 0) : payStep d = d := by
  have hmp : minPaid d = 0 := by
    unfold minPaid
    rw [hm, max_self, min_eq_right (le_of_lt h)]
  unfold payStep
  rw [if_pos h, hmp, sub_zero]

theorem monthOut_zero_budget (s : List WorkingDebt)
    (hnd : (s.map WorkingDebt.id).Nodup)
    (hall : ∀ d ∈ s, d.minPayment = 0 ∧ 0 < d.remaining) :
    (monthOut 0 s).1 = s ∧
    sumValues (monthOut 0 s).2.1 = 0 ∧
    ∀ d ∈ s, lookupR (monthOut 0 s).2.1 d.id = some 0 ∧
      lookupR (monthOut 0 s).2.2 d.id = some d.remaining := by
  have hfe : s.filter (fun d => decide (0 < d.remaining)) = s :=
    List.filter_eq_self.mpr (fun d hd => by simpa using (hall d hd).2)
  have hsum0 : sumMinW s = 0 := by
    rw [sumMinW_eq_sum]
    apply List.sum_eq_zero
    intro x hx
    rcases List.mem_map.mp hx with ⟨d, hd, he⟩
    rw [← he]
    exact (hall d hd).1
  have hextra : monthExtra 0 s = 0 := by
    unfold monthExtra
    rw [hfe, hsum0]
    norm_num
  have hpm1 : (payMinimums s [] []).1 = s := by
    rw [payMinimums_state]
    have := List.map_congr_left
      (fun d (hd : d ∈ s) => payStep_eq_self d (hall d hd).2 (hall d hd).1)
    rw [this]
    exact List.map_id s
  have hmp : ∀ d ∈ s, minPaid d = 0 := by
    intro d hd
    unfold minPaid
    rw [(hall d hd).1, max_self, min_eq_right (le_of_lt (hall d hd).2)]
  have hout : monthOut 0 s =
      (s, (payMinimums s [] []).2.1, (payMinimums s [] []).2.2) := by
    unfold monthOut
    rw [hextra, snowballPass_of_le _ _ _ _ (le_of_lt eps_pos), hpm1]
  refine ⟨by rw [hout], ?_, ?_⟩
  · rw [hout]
    simp only
    rw [payMinimums_pays_sum s [] []]
    have : sumValues ([] : Rec) = 0 := rfl
    rw [this, zero_add]
    apply List.sum_eq_zero
    intro x hx
    rcases List.mem_map.mp hx with ⟨d, hd, he⟩
    rw [← he]
    exact hmp d (List.mem_of_mem_filter hd)
  · intro d hd
    constructor
    · rw [hout]
      simp only
      rw [payMinimums_pays_hit s [] [] hnd d hd (hall d hd).2, hmp d hd]
      have hg : recGet [] d.id = 0 := rfl
      rw [hg, add_zero]
    · rw [hout]
      simp only
      rw [payMinimums_rems_hit s [] [] hnd d hd (hall d hd).2, hmp d hd, sub_zero]

theorem runLoop_zero_budget (fuel : ℕ) :
    ∀ (i : ℕ) (s : List WorkingDebt),
      (s.map WorkingDebt.id).Nodup →
      (∀ d ∈ s, d.minPayment = 0 ∧ 0 < d.remaining) →
      (∃ d ∈ s, eps < d.remaining) →
      (runLoop fuel i 0 s).1.length = fuel ∧
      ∀ mo ∈ (runLoop fuel i 0 s).1,
        mo.totalPaid = 0 ∧
        ∀ d ∈ s, lookupR mo.payments d.id = some 0 ∧
          lookupR mo.remainingById d.id = some d.remaining := by
  induction fuel with
  | zero =>
    intro i s _ _ _
    rw [runLoop_zero]
    exact ⟨rfl, by intro mo hmo; cases hmo⟩
  | succ fuel ih =>
    intro i s hnd hall hex
    rcases monthOut_zero_budget s hnd hall with ⟨hstate, hsum, hrecs⟩
    have hstate' : (runMonth i 0 s).2 = s := by rw [runMonth_state, hstate]
    have hb1 : (s.filter (fun d => decide (0 < d.remaining))).isEmpty = false := by
      rcases hex with ⟨d0, hd0, _⟩
      have hmem : d0 ∈ s.filter (fun d => decide (0 < d.remaining)) :=
        List.mem_filter.mpr ⟨hd0, by simpa using (hall d0 hd0).2⟩
      cases hq : (s.filter (fun d => decide (0 < d.remaining))).isEmpty with
      | false => rfl
      | true =>
        exfalso
        rw [List.isEmpty_iff.mp hq] at hmem
        cases hmem
    have hb2 : ((runMonth i 0 s).2.all (fun d => decide (d.remaining ≤ eps))) = false := by
      rcases hex with ⟨d0, hd0, hd0e⟩
      cases hq : ((runMonth i 0 s).2.all (fun d => decide (d.remaining ≤ eps))) with
      | false => rfl
      | true =>
        exfalso
        have := List.all_eq_true.mp hq d0 (by rw [hstate']; exact hd0)
        simp only [decide_eq_true_eq] at this
        linarith
    rw [runLoop_cont fuel i 0 s hb1 hb2, hstate']
    rcases ih (i + 1) s hnd hall hex with ⟨ihlen, ihmo⟩
    constructor
    · simp only [List.length_cons, ihlen]
    · intro mo hmo
      rcases List.mem_cons.mp hmo with h' | h'
      · subst h'
        refine ⟨by rw [runMonth_totalPaid]; exact hsum, fun d hd => ?_⟩
        rw [runMonth_pays, runMonth_rems]
        exact (hrecs d hd)
      · exact ihmo mo h'

/-- **C10 amended** (zero-budget plateau): if some debt's balance exceeds the
tolerance `eps`, every working-set debt has minimum payment `0`, and the extra
payment is `0`, the schedule runs for exactly `maxMonths` months, every month
pays `0` in total and `0` to every working-set debt, and every
`remainingById` entry stays at the original `debtAmount`.  (A positive balance
alone is not enough: a working set whose balances are all ≤ `eps` stops after
one month — see the counterexample.) -/
theorem zero_budget_full_cap (debts : List DebtItem) (maxMonths : ℕ)
    (hnd : ((workingSet debts).map DebtItem.id).Nodup)
    (hmin0 : ∀ d ∈ debts, 0 < d.debtAmount → d.minPayment = 0)
    (hbig : ∃ d ∈ debts, eps < d.debtAmount) :
    (runSnowball debts 0 maxMonths).length = maxMonths ∧
    ∀ mo ∈ runSnowball debts 0 maxMonths,
      mo.totalPaid = 0 ∧
      ∀ d ∈ workingSet debts,
        lookupR mo.payments d.id = some 0 ∧
        lookupR mo.remainingById d.id = some d.debtAmount := by
  have hall : ∀ w ∈ initActive debts, w.minPayment = 0 ∧ 0 < w.remaining := by
    intro w hw
    rcases initActive_min_mem debts w hw with ⟨d, hd, _, hm, hr⟩
    have hd' := (mem_workingSet debts d).mp hd
    exact ⟨by rw [hm]; exact hmin0 d hd'.1 hd'.2, by rw [hr]; exact hd'.2⟩
  have hex : ∃ w ∈ initActive debts, eps < w.remaining := by
    rcases hbig with ⟨d, hd, hde⟩
    have hdw : d ∈ workingSet debts :=
      (mem_workingSet debts d).mpr ⟨hd, lt_trans eps_pos hde⟩
    exact ⟨_, mem_initActive_of_workingSet debts d hdw, hde⟩
  have hb : (initActive debts).isEmpty = false := by
    rcases hex with ⟨w, hw, _⟩
    cases hq : (initActive debts).isEmpty with
    | false => rfl
    | true =>
      exfalso
      rw [List.isEmpty_iff.mp hq] at hw
      cases hw
  have htm : sumMinW (initActive debts) + 0 = 0 := by
    rw [add_zero, sumMinW_eq_sum]
    apply List.sum_eq_zero
    intro x hx
    rcases List.mem_map.mp hx with ⟨w, hw, he⟩
    rw [← he]
    exact (hall w hw).1
  rw [runSnowball_loop debts 0 maxMonths hb, htm]
  rcases runLoop_zero_budget maxMonths 1 (initActive debts)
      (by rw [initActive_ids]; exact hnd) hall hex with ⟨hlen, hmo⟩
  refine ⟨hlen, fun mo hm => ?_⟩
  rcases hmo mo hm with ⟨hp, hrec⟩
  refine ⟨hp, fun d hd => ?_⟩
  exact hrec _ (mem_initActive_of_workingSet debts d hd)

/-! ### Concrete runs: the spec's worked examples, counterexamples, witnesses

The arithmetic operations on `ℚ` are made reducible locally so that `decide`
can evaluate the simulator inside the kernel on concrete inputs. -/

section ConcreteRuns

attribute [local semireducible] Rat.add Rat.sub Rat.mul Rat.inv

/-- **C7** (single debt, exact payoff): `simulate([{id:"a", minPayment:100,
debtAmount:250}], 0)` yields exactly 3 months with remaining 150, 50, 0 and
payments 100, 100, 50. -/
theorem single_debt_schedule :
    (runSnowball [⟨"a", 100, 250⟩] 0 600).length = 3 ∧
    (runSnowball [⟨"a", 100, 250⟩] 0 600).map
      (fun mo => lookupR mo.remainingById "a") = [some 150, some 50, some 0] ∧
    (runSnowball [⟨"a", 100, 250⟩] 0 600).map
      (fun mo => lookupR mo.payments "a") = [some 100, some 100, some 50] := by
  decide

/-- **C4** (snowball ordering): in
`simulate([{a, 10, 50}, {b, 10, 200}], 40)` month 1 pays a = 50 (paid off)
and b = 10 (remaining 190), and debt a reaches remaining 0 strictly before
any month in which b is paid more than its minimum of 10. -/
theorem snowball_ordering :
    ((runSnowball [⟨"a", 10, 50⟩, ⟨"b", 10, 200⟩] 40 600).head?.map
      (fun mo => (lookupR mo.payments "a", lookupR mo.payments "b",
                  lookupR mo.remainingById "a", lookupR mo.remainingById "b"))) =
      some (some 50, some 10, some 0, some 190) ∧
    ∃ ia : Fin (runSnowball [⟨"a", 10, 50⟩, ⟨"b", 10, 200⟩] 40 600).length,
      lookupR ((runSnowball [⟨"a", 10, 50⟩, ⟨"b", 10, 200⟩] 40 600).get ia).remainingById
          "a" = some 0 ∧
      ∀ ib : Fin (runSnowball [⟨"a", 10, 50⟩, ⟨"b", 10, 200⟩] 40 600).length,
        10 < (lookupR ((runSnowball [⟨"a", 10, 50⟩, ⟨"b", 10, 200⟩] 40 600).get
          ib).payments "b").getD 0 →
        (ia : ℕ) < (ib : ℕ) := by
  decide

/-- **C2 counterexample**: with two working-set debts sharing the id `"x"`
(`{x, 10, 100}` and `{x, 5, 5}`, extra 0), the `remainingById."x"` entry is
`0` in month 1 (the small debt pays off and overwrites the key last) and `75`
in month 2 (only the large debt remains) — the sequence increases, so the
claim fails without an assumption that working-set ids are distinct. -/
theorem monotonic_payoff_counterexample :
    (⟨"x", 5, 5⟩ : DebtItem) ∈ workingSet [⟨"x", 10, 100⟩, ⟨"x", 5, 5⟩] ∧
    ((runSnowball [⟨"x", 10, 100⟩, ⟨"x", 5, 5⟩] 0 600)[0]?.map
      (fun mo => lookupR mo.remainingById "x")) = some (some 0) ∧
    ((runSnowball [⟨"x", 10, 100⟩, ⟨"x", 5, 5⟩] 0 600)[1]?.map
      (fun mo => lookupR mo.remainingById "x")) = some (some 75) ∧
    ¬ ((75 : ℚ) ≤ 0) := by
  decide

/-- **C3 counterexample**: with the single working debt
`{a, minPayment 1, debtAmount 1 + 1e-7}` the simulation stops after one month
(cap not hit) with remaining `1e-7`: no month's `remainingById.a` is exactly
`0`, refuting "reaches exactly 0". -/
theorem exact_payoff_counterexample :
    (⟨"a", 1, 1 + 1/10000000⟩ : DebtItem) ∈ workingSet [⟨"a", 1, 1 + 1/10000000⟩] ∧
    (runSnowball [⟨"a", 1, 1 + 1/10000000⟩] 0 600).length < 600 ∧
    ∀ mo ∈ runSnowball [⟨"a", 1, 1 + 1/10000000⟩] 0 600,
      lookupR mo.remainingById "a" ≠ some 0 := by
  decide

/-- **C5 counterexample**: with `extraPayment = -5` the schedule differs from
the clamped (`extraPayment = 0`) schedule: once debt a is paid off, the freed
minimum is offset by the negative extra (month 2 pays b down to 75, not 70). -/
theorem clamping_counterexample :
    runSnowball [⟨"a", 10, 10⟩, ⟨"b", 10, 100⟩] (-5) 600 ≠
      runSnowball [⟨"a", 10, 10⟩, ⟨"b", 10, 100⟩] 0 600 ∧
    ((runSnowball [⟨"a", 10, 10⟩, ⟨"b", 10, 100⟩] (-5) 600)[1]?.map
      (fun mo => lookupR mo.remainingById "b")) = some (some 75) ∧
    ((runSnowball [⟨"a", 10, 10⟩, ⟨"b", 10, 100⟩] 0 600)[1]?.map
      (fun mo => lookupR mo.remainingById "b")) = some (some 70) := by
  decide

/-- **C10 counterexample**: a working debt with balance `1e-7 ≤ eps`, zero
minimum payment and zero extra payment yields a one-month schedule, not the
claimed `maxMonths = 600` months: the final `break` fires because every
remaining balance is within the tolerance. -/
theorem zero_budget_counterexample :
    (0 : ℚ) < 1/10000000 ∧ (1/10000000 : ℚ) ≤ eps ∧
    (runSnowball [⟨"a", 0, 1/10000000⟩] 0 600).length = 1 ∧
    (runSnowball [⟨"a", 0, 1/10000000⟩] 0 600).length ≠ 600 := by
  decide

theorem budget_ceiling_witness :
    (∀ d ∈ [(⟨"a", 100, 250⟩ : DebtItem)], 0 ≤ d.minPayment) ∧
    ∀ mo ∈ runSnowball [⟨"a", 100, 250⟩] 0 600,
      mo.totalPaid ≤ sumMinD (workingSet [⟨"a", 100, 250⟩]) + 0 + eps :=
  ⟨by decide, budget_ceiling [⟨"a", 100, 250⟩] 0 600 (by decide) (le_refl 0)⟩

theorem monotonic_payoff_witness :
    ((workingSet [(⟨"a", 10, 50⟩ : DebtItem), ⟨"b", 10, 200⟩]).map DebtItem.id).Nodup ∧
    (130 : ℚ) ≤ 190 :=
  ⟨by decide,
    monotonic_payoff [⟨"a", 10, 50⟩, ⟨"b", 10, 200⟩] 40 600 (by decide)
      ⟨"b", 10, 200⟩ (by decide) 0
      (((runSnowball [⟨"a", 10, 50⟩, ⟨"b", 10, 200⟩] 40 600)[0]?).getD (⟨0, 0, [], []⟩ : SnowballMonth))
      (((runSnowball [⟨"a", 10, 50⟩, ⟨"b", 10, 200⟩] 40 600)[1]?).getD (⟨0, 0, [], []⟩ : SnowballMonth))
      (by decide) (by decide) 190 130 (by decide) (by decide)⟩

theorem exact_payoff_within_epsilon_witness :
    (runSnowball [⟨"a", 100, 250⟩] 0 600).length < 600 ∧
    ∃ mo ∈ runSnowball [⟨"a", 100, 250⟩] 0 600,
      ∃ v, lookupR mo.remainingById "a" = some v ∧ v ≤ eps :=
  ⟨by decide,
    exact_payoff_within_epsilon [⟨"a", 100, 250⟩] 0 600 (by decide) (by decide)
      ⟨"a", 100, 250⟩ (by decide)⟩

theorem defensive_totality_witness :
    (runSnowball [⟨"a", 10, 10⟩, ⟨"b", 10, 100⟩] (-5) 600).length ≤ 600 :=
  (defensive_totality [⟨"a", 10, 10⟩, ⟨"b", 10, 100⟩] (-5) 600).1

theorem nonpositive_debts_excluded_witness :
    runSnowball [⟨"z", 5, 0⟩] 3 600 = [] :=
  (nonpositive_debts_excluded [⟨"z", 5, 0⟩] 3 600).2 (by decide)

theorem bounded_termination_witness :
    (runSnowball [⟨"a", 100, 250⟩] 0 600).length ≤ 600 ∧
    (((runSnowball [⟨"a", 100, 250⟩] 0 600)[0]?).getD (⟨0, 0, [], []⟩ : SnowballMonth)).monthIndex = 1 :=
  ⟨(bounded_termination [⟨"a", 100, 250⟩] 0 600).1,
    (bounded_termination [⟨"a", 100, 250⟩] 0 600).2 0
      (((runSnowball [⟨"a", 100, 250⟩] 0 600)[0]?).getD (⟨0, 0, [], []⟩ : SnowballMonth)) (by decide)⟩

theorem simulate_deterministic_witness :
    runSnowball [⟨"a", 100, 250⟩] 0 600 = runSnowball [⟨"a", 100, 250⟩] 0 600 :=
  simulate_deterministic [⟨"a", 100, 250⟩] [⟨"a", 100, 250⟩] 0 600 rfl

theorem zero_budget_full_cap_witness :
    ((workingSet [(⟨"a", 0, 5⟩ : DebtItem)]).map DebtItem.id).Nodup ∧
    (runSnowball [⟨"a", 0, 5⟩] 0 2).length = 2 :=
  ⟨by decide,
    (zero_budget_full_cap [⟨"a", 0, 5⟩] 2 (by decide) (by decide)
      ⟨⟨"a", 0, 5⟩, by decide, by decide⟩).1⟩

end ConcreteRuns

end Ledger
